import Mathlib

/-!
Operation aggregation of the overlay engine.

A shallow embedding of
`include/boost/geometry/algorithms/detail/overlay/aggregate_operations.hpp`:
the element type `ring_with_direction` with its `operator<`, the cluster type
`rank_with_rings` with its five predicates, and `aggregate_operations`.
It is followed by a model of the finalization steps of the traverser, which is
not among the sources, and by the constants and the longitude maps of
`include/boost/geometry/extensions/gis/projections/proj/gall.hpp`.

Conventions of the embedding.

* `std::size_t` values are `Nat`, `int` and `signed_size_type` values are `Int`;
  no arithmetic is performed on them in this header, only comparisons.
* A `std::set<ring_with_direction>` is the list of its elements in iteration
  order (ascending under `operator<`); `set_insert` is `std::set::insert`.
* A `std::vector<rank_with_rings>` is a list, `back()` is its last element.
* An indexing `turns[i]` or `operations[j]` outside the container is undefined
  behaviour in the source. The embedding makes it observable: the functions
  that index return `Option`, and `none` stands for an out-of-range lookup.
-/

namespace sort_by_side

/-! ## Types declared outside this header -/

/-- Modelled from the spec: the enum `direction_type` is declared in
`sort_by_side.hpp`, which is not among the sources. The header under study names
the enumerators `dir_unknown`, `dir_from` and `dir_to`; the spec gives the
direction of a ranked point as one of from, to. -/
inductive direction_type where
  | dir_unknown
  | dir_from
  | dir_to
  deriving DecidableEq, Repr

/-- Modelled from the spec: the numeric value of an enumerator of
`direction_type` (declared in `sort_by_side.hpp`, not among the sources), by
which the built-in `<` on the enum compares. Distinct enumerators have distinct
values. -/
def direction_type.toInt : direction_type → Int
  | .dir_unknown => -1
  | .dir_from => 0
  | .dir_to => 1

/-- Modelled from the spec: the enum `operation_type` is declared in the turn
headers, which are not among the sources. The spec lists the tags intersection,
union, continue, blocked and none. -/
inductive operation_type where
  | operation_none
  | operation_union
  | operation_intersection
  | operation_blocked
  | operation_continue
  deriving DecidableEq, Repr

/-- Modelled from the spec: `ring_identifier` is declared outside the sources.
It is the composite key `(source_index, multi_index, ring_index)`. -/
structure ring_identifier where
  source_index : Int
  multi_index : Int
  ring_index : Int
  deriving DecidableEq, Repr

/-- Modelled from the spec: `ring_identifier::operator<`, declared outside the
sources: the lexicographic comparison of the triple. -/
def ring_identifier.lt (a b : ring_identifier) : Bool :=
  if a.source_index != b.source_index then decide (a.source_index < b.source_index)
  else if a.multi_index != b.multi_index then decide (a.multi_index < b.multi_index)
  else decide (a.ring_index < b.ring_index)

/-- Modelled from the spec: `ring_identifier::operator!=`, declared outside the
sources: two ring identifiers are equal iff all three components match. -/
def ring_identifier.ne (a b : ring_identifier) : Bool :=
  a.source_index != b.source_index || a.multi_index != b.multi_index
    || a.ring_index != b.ring_index

/-- Modelled from the spec: `segment_identifier` is declared outside the
sources: a ring identifier plus an edge index within that ring. -/
structure segment_identifier where
  source_index : Int
  multi_index : Int
  ring_index : Int
  segment_index : Int
  deriving DecidableEq, Repr

/-- Modelled from the spec: the visited state of a turn operation (`visit_info`,
declared outside the sources), with its three observable values. -/
inductive visit_info where
  | unvisited
  | in_progress
  | finalized_state
  deriving DecidableEq, Repr

/-- Modelled from the spec: `visit_info::finalized()`, declared outside the
sources: whether the turn operation has been claimed by a completed ring. -/
def visit_info.finalized : visit_info → Bool
  | .finalized_state => true
  | _ => false

/-- Modelled from the spec: the enrichment data of a turn operation, declared
outside the sources; the fields the aggregator reads. -/
structure enrichment_info where
  region_id : Int
  isolated : Bool
  deriving DecidableEq, Repr

/-- Modelled from the spec: a turn operation, declared outside the sources; the
fields the aggregator reads. -/
structure turn_operation where
  operation : operation_type
  enriched : enrichment_info
  visited : visit_info
  deriving DecidableEq, Repr

/-- Modelled from the spec: a turn, declared outside the sources: it holds two
turn operations, one per operand edge (`operations[0]` and `operations[1]`). -/
structure turn where
  operations : turn_operation × turn_operation
  deriving DecidableEq, Repr

/-- Modelled from the spec: a ranked point (`Sbs::rp`), declared in
`sort_by_side.hpp`, which is not among the sources; the fields the aggregator
reads. -/
structure ranked_point where
  rank : Nat
  turn_index : Nat
  operation_index : Int
  seg_id : segment_identifier
  direction : direction_type
  deriving DecidableEq, Repr

/-- Modelled from the spec: the side sorter `Sbs`, declared in
`sort_by_side.hpp`, of which the aggregator reads `m_ranked_points` only. -/
structure Sbs where
  m_ranked_points : List ranked_point
  deriving DecidableEq, Repr

/-- The lookup `turn.operations[operation_index]` in the two-element array of a
turn; `none` outside the array. -/
def turn.operation_at (t : turn) (operation_index : Int) : Option turn_operation :=
  if operation_index = 0 then some t.operations.1
  else if operation_index = 1 then some t.operations.2
  else none

/-- The double lookup `turns[turn_index].operations[operation_index]`; `none`
when one of the two indices is out of range. -/
def lookup (turns : List turn) (turn_index : Nat) (operation_index : Int) :
    Option turn_operation :=
  match turns.get? turn_index with
  | none => none
  | some t => t.operation_at operation_index

/-! ## `ring_with_direction` -/

/-- The struct `ring_with_direction`. -/
structure ring_with_direction where
  ring_id : ring_identifier
  direction : direction_type
  turn_index : Nat
  operation_index : Int
  operation : operation_type
  region_id : Int
  isolated : Bool
  deriving DecidableEq, Repr

/-- The member `ring_with_direction::operator<`. -/
def ring_with_direction.lt (self other : ring_with_direction) : Bool :=
  if self.ring_id.ne other.ring_id then self.ring_id.lt other.ring_id
  else decide (self.direction.toInt < other.direction.toInt)

/-- The equivalence induced by `operator<`: neither value is less than the
other. This is what `std::set` treats as the same key. -/
def ring_with_direction.equiv (a b : ring_with_direction) : Bool :=
  !a.lt b && !b.lt a

/-- The unique insertion `std::set<ring_with_direction>::insert`, on the list of
the elements in ascending order: the new value goes before the first greater
element, and nothing is inserted when an equivalent element is present. -/
def set_insert (x : ring_with_direction) :
    List ring_with_direction → List ring_with_direction
  | [] => [x]
  | y :: ys =>
    if x.lt y then x :: y :: ys
    else if y.lt x then y :: set_insert x ys
    else y :: ys

/-! ## `rank_with_rings` -/

/-- The struct `rank_with_rings`: a rank and the set of its members. -/
structure rank_with_rings where
  rank : Nat
  rings : List ring_with_direction
  deriving DecidableEq, Repr

/-- The loop of `all_equal` over the members from an iterator position on. -/
def all_equal_loop (dir_type : direction_type) : List ring_with_direction → Bool
  | [] => true
  | it :: rest =>
    if it.direction != dir_type then false
    else all_equal_loop dir_type rest

/-- The member `rank_with_rings::all_equal`. -/
def rank_with_rings.all_equal (self : rank_with_rings) (dir_type : direction_type) : Bool :=
  all_equal_loop dir_type self.rings

/-- The member `rank_with_rings::all_to`. -/
def rank_with_rings.all_to (self : rank_with_rings) : Bool :=
  self.all_equal direction_type.dir_to

/-- The member `rank_with_rings::all_from`. -/
def rank_with_rings.all_from (self : rank_with_rings) : Bool :=
  self.all_equal direction_type.dir_from

/-- The loop of `is_c_i` from an iterator position on, with the current values
of `has_c` and `has_i`. -/
def is_c_i_loop : List ring_with_direction → Bool → Bool → Bool
  | [], has_c, has_i => has_c && has_i
  | rwd :: rest, has_c, has_i =>
    match rwd.operation with
    | .operation_continue => is_c_i_loop rest true has_i
    | .operation_intersection => is_c_i_loop rest has_c true
    | _ => false

/-- The member `rank_with_rings::is_c_i`. -/
def rank_with_rings.is_c_i (self : rank_with_rings) : Bool :=
  is_c_i_loop self.rings false false

/-- The loop of `is_isolated` from an iterator position on. -/
def is_isolated_loop : List ring_with_direction → Bool
  | [] => true
  | rwd :: rest =>
    if !rwd.isolated then false
    else is_isolated_loop rest

/-- The member `rank_with_rings::is_isolated`. -/
def rank_with_rings.is_isolated (self : rank_with_rings) : Bool :=
  is_isolated_loop self.rings

/-- The loop of `traversable` from an iterator position on; `none` when a
lookup in the turn table is out of range. -/
def traversable_loop (turns : List turn) : List ring_with_direction → Option Bool
  | [] => some true
  | rwd :: rest =>
    match lookup turns rwd.turn_index rwd.operation_index with
    | none => none
    | some op =>
      if op.visited.finalized then some false
      else traversable_loop turns rest

/-- The member `rank_with_rings::traversable`. -/
def rank_with_rings.traversable (self : rank_with_rings) (turns : List turn) : Option Bool :=
  traversable_loop turns self.rings

/-! ## `aggregate_operations` -/

/-- The statement `aggregation.back().rings.insert(rwd)` on a non-empty
vector; an empty vector is left as it is. -/
def insert_in_back (rwd : ring_with_direction) :
    List rank_with_rings → List rank_with_rings
  | [] => []
  | [current] => [{ current with rings := set_insert rwd current.rings }]
  | first :: second :: rest => first :: insert_in_back rwd (second :: rest)

/-- The value given to `rwd` in the loop body of `aggregate_operations`: every
field of the default-constructed struct is assigned from the ranked point and
its turn operation. -/
def make_rwd (ranked_point : ranked_point) (op : turn_operation) : ring_with_direction :=
  let sid := ranked_point.seg_id
  { ring_id := ⟨sid.source_index, sid.multi_index, sid.ring_index⟩
    direction := ranked_point.direction
    turn_index := ranked_point.turn_index
    operation_index := ranked_point.operation_index
    operation := op.operation
    region_id := op.enriched.region_id
    isolated := op.enriched.isolated }

/-- One iteration of the loop of `aggregate_operations`, for one ranked point;
`none` when the lookup in the turn table is out of range. -/
def aggregate_step (turns : List turn) (aggregation : List rank_with_rings)
    (ranked_point : ranked_point) : Option (List rank_with_rings) :=
  match lookup turns ranked_point.turn_index ranked_point.operation_index with
  | none => none
  | some op =>
    if !(op.operation == operation_type.operation_intersection
          || op.operation == operation_type.operation_continue) then
      some aggregation
    else
      let pushed :=
        match aggregation.getLast? with
        | none => aggregation ++ [{ rank := ranked_point.rank, rings := [] }]
        | some back =>
          if back.rank != ranked_point.rank then
            aggregation ++ [{ rank := ranked_point.rank, rings := [] }]
          else aggregation
      some (insert_in_back (make_rwd ranked_point op) pushed)

/-- The loop of `aggregate_operations` over the ranked points from index `i`
on. -/
def aggregate_loop (turns : List turn) :
    List ranked_point → List rank_with_rings → Option (List rank_with_rings)
  | [], aggregation => some aggregation
  | ranked_point :: rest, aggregation =>
    match aggregate_step turns aggregation ranked_point with
    | none => none
    | some next => aggregate_loop turns rest next

/-- The function `aggregate_operations`: the value left in `aggregation`, which
is cleared first; `none` when a lookup in the turn table is out of range. -/
def aggregate_operations (sbs : Sbs) (aggregation : List rank_with_rings)
    (turns : List turn) : Option (List rank_with_rings) :=
  let cleared : List rank_with_rings := aggregation.take 0
  aggregate_loop turns sbs.m_ranked_points cleared

/-! ## Vocabulary of the properties -/

/-- A position `(turn_index, operation_index)` is valid in a turn table when the
turn exists and the operation index is one of the two slots of a turn. -/
def valid_position (turns : List turn) (turn_index : Nat) (operation_index : Int) : Prop :=
  turn_index < turns.length ∧ (operation_index = 0 ∨ operation_index = 1)

instance (turns : List turn) (turn_index : Nat) (operation_index : Int) :
    Decidable (valid_position turns turn_index operation_index) := by
  unfold valid_position; infer_instance

/-- The ring identifier of the segment of a ranked point, as the loop body of
`aggregate_operations` builds it:
`ring_identifier(sid.source_index, sid.multi_index, sid.ring_index)`. -/
def ranked_point.ring_id (p : ranked_point) : ring_identifier :=
  { source_index := p.seg_id.source_index, multi_index := p.seg_id.multi_index
    ring_index := p.seg_id.ring_index }

/-- The operation tag is one of the two that the aggregator keeps. -/
def operation_type.is_i_or_c (o : operation_type) : Bool :=
  o == operation_type.operation_intersection || o == operation_type.operation_continue

/-- A ranked point survives the filter of `aggregate_operations` over a turn
table: its turn operation exists and is tagged intersection or continue. -/
def survives (turns : List turn) (p : ranked_point) : Bool :=
  match lookup turns p.turn_index p.operation_index with
  | none => false
  | some op => op.operation.is_i_or_c

/-! ## Sample data -/

/-- A member of ring `(0, 0, 0)` arriving at the point, tagged intersection. -/
def sample_member_to : ring_with_direction :=
  { ring_id := ⟨0, 0, 0⟩, direction := direction_type.dir_to, turn_index := 0
    operation_index := 0, operation := operation_type.operation_intersection
    region_id := 1, isolated := false }

/-- A member of ring `(1, 0, 0)` leaving the point, tagged continue. -/
def sample_member_from : ring_with_direction :=
  { ring_id := ⟨1, 0, 0⟩, direction := direction_type.dir_from, turn_index := 0
    operation_index := 1, operation := operation_type.operation_continue
    region_id := 1, isolated := true }

/-- A turn operation with the given tag and visited state, in region 1 and not
isolated. -/
def sample_operation (o : operation_type) (v : visit_info) : turn_operation :=
  { operation := o, enriched := { region_id := 1, isolated := false }, visited := v }

/-- A turn table with two turns; the second operation of the second turn is
finalized, the first operation of the second turn is tagged union. -/
def sample_turns : List turn :=
  [ { operations :=
        (sample_operation operation_type.operation_intersection visit_info.unvisited,
         sample_operation operation_type.operation_continue visit_info.in_progress) },
    { operations :=
        (sample_operation operation_type.operation_union visit_info.unvisited,
         sample_operation operation_type.operation_intersection
           visit_info.finalized_state) } ]

/-- A ranked point of the given rank, position, source and direction, on ring
`(source, 0, 0)`, segment 5. -/
def sample_point (rank turn_index : Nat) (operation_index source : Int)
    (direction : direction_type) : ranked_point :=
  { rank := rank, turn_index := turn_index, operation_index := operation_index
    seg_id := { source_index := source, multi_index := 0, ring_index := 0,
                segment_index := 5 }
    direction := direction }

/-- A side sorter over `sample_turns` with ranks 0, 0, 1, 2: the point of rank 1
refers to the operation tagged union, the others survive the filter. -/
def sample_sbs : Sbs :=
  { m_ranked_points :=
      [ sample_point 0 0 0 0 direction_type.dir_to,
        sample_point 0 0 1 1 direction_type.dir_from,
        sample_point 1 1 0 0 direction_type.dir_to,
        sample_point 2 1 1 1 direction_type.dir_from ] }

/-- The cluster of rank 0 without members, as `rank_with_rings()` builds it. -/
def empty_cluster : rank_with_rings := { rank := 0, rings := [] }

/-- A cluster with the single member `sample_member_to`. -/
def single_cluster : rank_with_rings := { rank := 0, rings := [sample_member_to] }

/-- A cluster with two members, in the order of `operator<`. -/
def pair_cluster : rank_with_rings :=
  { rank := 0, rings := [sample_member_to, sample_member_from] }

/-- Ranked points of one rank over `sample_turns`: both survive the filter and
both lie on ring `(0, 0, 0)` with direction `dir_to`; the second one refers to
the finalized operation of the table. -/
def collapsing_sbs : Sbs :=
  { m_ranked_points :=
      [ sample_point 0 0 0 0 direction_type.dir_to,
        sample_point 0 1 1 0 direction_type.dir_to ] }

/-- The turn table `sample_turns` after the finalization of its two unvisited
operations, at positions `(0, 0)` and `(1, 0)`. -/
def sample_turns_exhausted : List turn :=
  [ { operations :=
        (sample_operation operation_type.operation_intersection visit_info.finalized_state,
         sample_operation operation_type.operation_continue visit_info.in_progress) },
    { operations :=
        (sample_operation operation_type.operation_union visit_info.finalized_state,
         sample_operation operation_type.operation_intersection
           visit_info.finalized_state) } ]

/-! ## The traverser -/

/-- Modelled from the spec: the number of turn operations of a turn table whose
visited state is unvisited. -/
def unvisited_count : List turn → Nat
  | [] => 0
  | t :: rest =>
    (if t.operations.1.visited = visit_info.unvisited then 1 else 0)
      + (if t.operations.2.visited = visit_info.unvisited then 1 else 0)
      + unvisited_count rest

/-- Modelled from the spec: the Traverser is not among the sources. The
finalization of one operation of a turn: the operation must be unvisited, and
its visited state becomes finalized; `none` when the slot does not exist or the
operation is not unvisited (once finalized, a turn operation is never
revisited). -/
def turn.finalize (t : turn) (operation_index : Int) : Option turn :=
  if operation_index = 0 then
    if t.operations.1.visited = visit_info.unvisited then
      some { operations :=
        ({ t.operations.1 with visited := visit_info.finalized_state }, t.operations.2) }
    else none
  else if operation_index = 1 then
    if t.operations.2.visited = visit_info.unvisited then
      some { operations :=
        (t.operations.1, { t.operations.2 with visited := visit_info.finalized_state }) }
    else none
  else none

/-- Modelled from the spec: the Traverser is not among the sources. One
finalization step of the Traverser on the turn table: it commits the turn
operation at `(turn_index, operation_index)`, which was unvisited, to the ring
and marks it finalized; `none` when there is no such unvisited operation. -/
def finalize_step : List turn → Nat → Int → Option (List turn)
  | [], _, _ => none
  | t :: rest, 0, operation_index =>
    match t.finalize operation_index with
    | none => none
    | some t2 => some (t2 :: rest)
  | t :: rest, turn_index + 1, operation_index =>
    match finalize_step rest turn_index operation_index with
    | none => none
    | some rest2 => some (t :: rest2)

/-- Modelled from the spec: the Traverser is not among the sources. A traversal
of the turn table as the sequence of its finalization steps, each given by the
position of the turn operation it consumes (the geometric rule that chooses the
position is outside this model); `none` when one of the steps is not
possible. -/
def traverse : List turn → List (Nat × Int) → Option (List turn)
  | turns, [] => some turns
  | turns, step :: rest =>
    match finalize_step turns step.1 step.2 with
    | none => none
    | some next => traverse next rest

end sort_by_side

/-! ## The Gall projection -/

namespace gall

/-- The constant `YF` of `proj/gall.hpp`, read as an exact decimal. -/
def YF : ℚ := 170710678118654752440 / 100000000000000000000

/-- The constant `XF` of `proj/gall.hpp`, read as an exact decimal. -/
def XF : ℚ := 70710678118654752440 / 100000000000000000000

/-- The constant `RYF` of `proj/gall.hpp`, read as an exact decimal. -/
def RYF : ℚ := 58578643762690495119 / 100000000000000000000

/-- The constant `RXF` of `proj/gall.hpp`, read as an exact decimal. -/
def RXF : ℚ := 141421356237309504880 / 100000000000000000000

/-- The first output of `base_gall_spheroid::fwd`, `xy_x = XF * lp_lon`, in exact
arithmetic. -/
def fwd_x (lp_lon : ℚ) : ℚ := XF * lp_lon

/-- The first output of `base_gall_spheroid::inv`, `lp_lon = RXF * xy_x`, in
exact arithmetic. -/
def inv_lon (xy_x : ℚ) : ℚ := RXF * xy_x

end gall

namespace sort_by_side

/-! ## The predicates of a cluster -/

theorem all_equal_loop_iff (d : direction_type) (l : List ring_with_direction) :
    all_equal_loop d l = true ↔ ∀ m ∈ l, m.direction = d := by
  induction l with
  | nil => simp [all_equal_loop]
  | cons a l ih =>
    by_cases h : a.direction = d <;> simp [all_equal_loop, h, ih]

theorem is_c_i_loop_iff (l : List ring_with_direction) (has_c has_i : Bool) :
    is_c_i_loop l has_c has_i = true ↔
      (has_c = true ∨ ∃ m ∈ l, m.operation = operation_type.operation_continue) ∧
      (has_i = true ∨ ∃ m ∈ l, m.operation = operation_type.operation_intersection) ∧
      ∀ m ∈ l, m.operation = operation_type.operation_continue
        ∨ m.operation = operation_type.operation_intersection := by
  induction l generalizing has_c has_i with
  | nil => simp [is_c_i_loop]
  | cons a l ih =>
    cases h : a.operation <;> simp [is_c_i_loop, h, ih]

theorem is_isolated_loop_iff (l : List ring_with_direction) :
    is_isolated_loop l = true ↔ ∀ m ∈ l, m.isolated = true := by
  induction l with
  | nil => simp [is_isolated_loop]
  | cons a l ih =>
    cases h : a.isolated <;> simp [is_isolated_loop, h, ih]

theorem all_equal_loop_both_iff_nil (l : List ring_with_direction) :
    (all_equal_loop direction_type.dir_to l = true
      ∧ all_equal_loop direction_type.dir_from l = true) ↔ l = [] := by
  constructor
  · rintro ⟨hto, hfrom⟩
    cases l with
    | nil => rfl
    | cons a l =>
      have h1 := (all_equal_loop_iff _ _).mp hto a (by simp)
      have h2 := (all_equal_loop_iff _ _).mp hfrom a (by simp)
      rw [h1] at h2
      exact absurd h2 (by decide)
  · intro hr
    simp [hr, all_equal_loop]

/-- C1: `is_c_i()` is true exactly when the cluster has a continue member, an
intersection member and no member of another kind; in particular it is false as
soon as a member is tagged union or blocked. -/
theorem is_c_i_iff (c : rank_with_rings) :
    (c.is_c_i = true ↔
      (∃ m ∈ c.rings, m.operation = operation_type.operation_continue) ∧
      (∃ m ∈ c.rings, m.operation = operation_type.operation_intersection) ∧
      ∀ m ∈ c.rings, m.operation = operation_type.operation_continue
        ∨ m.operation = operation_type.operation_intersection) ∧
    ((∃ m ∈ c.rings, m.operation = operation_type.operation_union
        ∨ m.operation = operation_type.operation_blocked) → c.is_c_i = false) := by
  have key := is_c_i_loop_iff c.rings false false
  simp only [Bool.false_eq_true, false_or] at key
  refine ⟨key, ?_⟩
  rintro ⟨m, hm, hop⟩
  cases hci : c.is_c_i
  · rfl
  · have h := (key.mp hci).2.2 m hm
    rcases hop with hop | hop <;> rw [hop] at h <;> simp at h

/-- C5: `all_to()` is true exactly when every member has direction `dir_to`,
and `all_from()` exactly when every member has direction `dir_from`. -/
theorem all_to_all_from_iff (c : rank_with_rings) :
    (c.all_to = true ↔ ∀ m ∈ c.rings, m.direction = direction_type.dir_to) ∧
    (c.all_from = true ↔ ∀ m ∈ c.rings, m.direction = direction_type.dir_from) :=
  ⟨all_equal_loop_iff _ _, all_equal_loop_iff _ _⟩

/-- C6, as the claim states it, fails on the cluster without members: it does
not have exactly one member, and `all_to()` and `all_from()` are both true. -/
theorem all_to_all_from_empty_both :
    empty_cluster.rings.length ≠ 1 ∧ empty_cluster.all_to = true
      ∧ empty_cluster.all_from = true := by
  decide

/-- C6, amended: `all_to()` and `all_from()` are both true exactly when the
cluster has no member; in particular they are never both true for a cluster with
two or more members. -/
theorem all_to_all_from_both_iff_empty (c : rank_with_rings) :
    ((c.all_to = true ∧ c.all_from = true) ↔ c.rings = []) ∧
    (2 ≤ c.rings.length → ¬ (c.all_to = true ∧ c.all_from = true)) := by
  have key := all_equal_loop_both_iff_nil c.rings
  refine ⟨key, fun h2 hboth => ?_⟩
  have hnil := key.mp hboth
  rw [hnil] at h2
  simp at h2

/-- C7, as the claim states it, fails on a cluster with one member: the member
has direction `dir_to`, and `all_from()` is false. -/
theorem all_from_single_false :
    single_cluster.rings.length = 1 ∧ single_cluster.all_to = true
      ∧ single_cluster.all_from = false := by
  decide

/-- C7, amended: for a cluster with exactly one member, `all_to()` is true
exactly when that member has direction `dir_to`, `all_from()` exactly when it
has direction `dir_from`, and the two are never both true. -/
theorem all_to_all_from_single (c : rank_with_rings) (m : ring_with_direction)
    (h : c.rings = [m]) :
    (c.all_to = true ↔ m.direction = direction_type.dir_to) ∧
    (c.all_from = true ↔ m.direction = direction_type.dir_from) ∧
    ¬ (c.all_to = true ∧ c.all_from = true) := by
  have hto : c.all_to = true ↔ m.direction = direction_type.dir_to := by
    simp [rank_with_rings.all_to, rank_with_rings.all_equal, all_equal_loop_iff, h]
  have hfrom : c.all_from = true ↔ m.direction = direction_type.dir_from := by
    simp [rank_with_rings.all_from, rank_with_rings.all_equal, all_equal_loop_iff, h]
  refine ⟨hto, hfrom, ?_⟩
  rintro ⟨h1, h2⟩
  have e1 := hto.mp h1
  have e2 := hfrom.mp h2
  rw [e1] at e2
  exact absurd e2 (by decide)

/-- The amended C7 applied to the sample cluster with one member. -/
theorem all_to_all_from_single_witness :
    single_cluster.rings = [sample_member_to] ∧
      (single_cluster.all_to = true ↔ sample_member_to.direction = direction_type.dir_to) ∧
      (single_cluster.all_from = true
        ↔ sample_member_to.direction = direction_type.dir_from) ∧
      ¬ (single_cluster.all_to = true ∧ single_cluster.all_from = true) :=
  ⟨rfl, all_to_all_from_single single_cluster sample_member_to rfl⟩

/-- C8: `is_isolated()` is true exactly when the isolated flag of every member
is true. -/
theorem is_isolated_iff (c : rank_with_rings) :
    c.is_isolated = true ↔ ∀ m ∈ c.rings, m.isolated = true :=
  is_isolated_loop_iff c.rings

/-- C10, as the claim states it, fails: on the cluster without members every
predicate answers with an ordinary truth value, and `traversable` makes no
lookup that could fail. -/
theorem empty_cluster_ordinary_answers :
    empty_cluster.rings = [] ∧ empty_cluster.all_to = true ∧ empty_cluster.all_from = true
      ∧ empty_cluster.is_c_i = false ∧ empty_cluster.is_isolated = true
      ∧ empty_cluster.traversable [] = some true
      ∧ empty_cluster.traversable [] ≠ none := by
  decide

/-- C10, amended: on a cluster whose set of members is empty the predicates
return ordinary values and no error: `all_to()`, `all_from()`, `is_isolated()`
and `traversable(turns)` are true, `is_c_i()` is false. -/
theorem predicates_of_empty (c : rank_with_rings) (turns : List turn)
    (h : c.rings = []) :
    c.all_to = true ∧ c.all_from = true ∧ c.is_c_i = false ∧ c.is_isolated = true
      ∧ c.traversable turns = some true := by
  simp [rank_with_rings.all_to, rank_with_rings.all_from, rank_with_rings.all_equal,
    rank_with_rings.is_c_i, rank_with_rings.is_isolated, rank_with_rings.traversable, h,
    all_equal_loop, is_c_i_loop, is_isolated_loop, traversable_loop]

/-- The amended C10 applied to the sample cluster without members. -/
theorem predicates_of_empty_witness :
    empty_cluster.rings = [] ∧
      (empty_cluster.all_to = true ∧ empty_cluster.all_from = true
        ∧ empty_cluster.is_c_i = false ∧ empty_cluster.is_isolated = true
        ∧ empty_cluster.traversable sample_turns = some true) :=
  ⟨rfl, predicates_of_empty empty_cluster sample_turns rfl⟩

/-! ## Lookups in the turn table -/

theorem lookup_isSome_of_valid {turns : List turn} {ti : Nat} {oi : Int}
    (h : valid_position turns ti oi) : ∃ op, lookup turns ti oi = some op := by
  obtain ⟨hlt, hoi⟩ := h
  unfold lookup
  rw [List.get?_eq_get hlt]
  rcases hoi with hoi | hoi <;> simp [turn.operation_at, hoi]

theorem traversable_loop_spec (turns : List turn) (l : List ring_with_direction)
    (hvalid : ∀ m ∈ l, valid_position turns m.turn_index m.operation_index) :
    ∃ b, traversable_loop turns l = some b ∧
      (b = true ↔ ∀ m ∈ l, ∀ op,
        lookup turns m.turn_index m.operation_index = some op → op.visited.finalized = false) := by
  induction l with
  | nil => exact ⟨true, rfl, by simp⟩
  | cons a l ih =>
    obtain ⟨op, hop⟩ := lookup_isSome_of_valid (hvalid a (by simp))
    obtain ⟨b, hb, hiff⟩ := ih (fun m hm => hvalid m (by simp [hm]))
    cases hfin : op.visited.finalized
    · refine ⟨b, by simp [traversable_loop, hop, hfin, hb], ?_⟩
      rw [hiff]
      simp [hop, hfin]
    · refine ⟨false, by simp [traversable_loop, hop, hfin], ?_⟩
      simp [hop, hfin]

/-- C2: when every member refers to a valid position of the turn table,
`traversable(turns)` returns a truth value, which is true exactly when no
member refers to a finalized turn operation; a member that refers to a
finalized turn operation makes it false. -/
theorem traversable_iff (c : rank_with_rings) (turns : List turn)
    (hvalid : ∀ m ∈ c.rings, valid_position turns m.turn_index m.operation_index) :
    ∃ b, c.traversable turns = some b ∧
      (b = true ↔ ∀ m ∈ c.rings, ∀ op,
        lookup turns m.turn_index m.operation_index = some op
          → op.visited.finalized = false) ∧
      ((∃ m ∈ c.rings, ∃ op, lookup turns m.turn_index m.operation_index = some op
          ∧ op.visited.finalized = true) → b = false) := by
  obtain ⟨b, hb, hiff⟩ := traversable_loop_spec turns c.rings hvalid
  refine ⟨b, hb, hiff, ?_⟩
  rintro ⟨m, hm, op, hop, hfin⟩
  cases hbv : b
  · rfl
  · have := (hiff.mp hbv) m hm op hop
    rw [hfin] at this
    exact absurd this (by decide)

/-- The hypothesis of C2 holds for the sample pair cluster over the sample
turn table, and C2 applies there. -/
theorem traversable_iff_witness :
    (∀ m ∈ pair_cluster.rings,
        valid_position sample_turns m.turn_index m.operation_index) ∧
    ∃ b, pair_cluster.traversable sample_turns = some b ∧
      (b = true ↔ ∀ m ∈ pair_cluster.rings, ∀ op,
        lookup sample_turns m.turn_index m.operation_index = some op
          → op.visited.finalized = false) ∧
      ((∃ m ∈ pair_cluster.rings, ∃ op,
          lookup sample_turns m.turn_index m.operation_index = some op
          ∧ op.visited.finalized = true) → b = false) :=
  ⟨by decide, traversable_iff pair_cluster sample_turns (by decide)⟩

/-! ## The ordering of `ring_with_direction` -/

theorem direction_type.toInt_injective {a b : direction_type}
    (h : a.toInt = b.toInt) : a = b := by
  cases a <;> cases b <;> simp [direction_type.toInt] at h <;> rfl

theorem ring_with_direction.lt_iff (a b : ring_with_direction) :
    a.lt b = true ↔
      a.ring_id.source_index < b.ring_id.source_index ∨
      (a.ring_id.source_index = b.ring_id.source_index ∧
        (a.ring_id.multi_index < b.ring_id.multi_index ∨
        (a.ring_id.multi_index = b.ring_id.multi_index ∧
          (a.ring_id.ring_index < b.ring_id.ring_index ∨
          (a.ring_id.ring_index = b.ring_id.ring_index ∧
            a.direction.toInt < b.direction.toInt))))) := by
  unfold ring_with_direction.lt ring_identifier.ne ring_identifier.lt
  by_cases h1 : a.ring_id.source_index = b.ring_id.source_index
  · by_cases h2 : a.ring_id.multi_index = b.ring_id.multi_index
    · by_cases h3 : a.ring_id.ring_index = b.ring_id.ring_index
      · simp [h1, h2, h3]
      · simp [h1, h2, h3]
    · simp [h1, h2]
  · simp [h1]

theorem ring_identifier.eq_iff (a b : ring_identifier) :
    a = b ↔ a.source_index = b.source_index ∧ a.multi_index = b.multi_index
      ∧ a.ring_index = b.ring_index := by
  cases a; cases b; simp

theorem ring_with_direction.equiv_iff (a b : ring_with_direction) :
    a.equiv b = true ↔ a.ring_id = b.ring_id ∧ a.direction.toInt = b.direction.toInt := by
  have hab := ring_with_direction.lt_iff a b
  have hba := ring_with_direction.lt_iff b a
  unfold ring_with_direction.equiv
  rw [ring_identifier.eq_iff]
  cases h1 : a.lt b <;> cases h2 : b.lt a <;> simp [h1, h2] at hab hba ⊢ <;> omega

/-- C9: `operator<` of `ring_with_direction` is a strict weak ordering: it is
irreflexive and transitive, and its incomparability is transitive. It compares
the ring identifier first and the direction second, and two values are
equivalent under it exactly when they have the same ring identifier and the same
direction, whatever their other fields are. -/
theorem ring_with_direction_lt_strict_weak :
    (∀ a : ring_with_direction, a.lt a = false) ∧
    (∀ a b c : ring_with_direction, a.lt b = true → b.lt c = true → a.lt c = true) ∧
    (∀ a b c : ring_with_direction,
      a.equiv b = true → b.equiv c = true → a.equiv c = true) ∧
    (∀ a b : ring_with_direction, a.lt b = true ↔
      (a.ring_id.lt b.ring_id = true ∨
        (a.ring_id = b.ring_id ∧ a.direction.toInt < b.direction.toInt))) ∧
    (∀ a b : ring_with_direction, a.equiv b = true ↔
      (a.ring_id = b.ring_id ∧ a.direction = b.direction)) := by
  refine ⟨?_, ?_, ?_, ?_, ?_⟩
  · intro a
    have h := ring_with_direction.lt_iff a a
    cases hlt : a.lt a
    · rfl
    · rw [hlt] at h
      have h2 := h.mp rfl
      omega
  · intro a b c hab hbc
    rw [ring_with_direction.lt_iff] at hab hbc ⊢
    omega
  · intro a b c hab hbc
    rw [ring_with_direction.equiv_iff] at hab hbc ⊢
    exact ⟨hab.1.trans hbc.1, hab.2.trans hbc.2⟩
  · intro a b
    rw [ring_with_direction.lt_iff, ring_identifier.eq_iff]
    have hid : a.ring_id.lt b.ring_id = true ↔
        (a.ring_id.source_index < b.ring_id.source_index ∨
        (a.ring_id.source_index = b.ring_id.source_index ∧
          (a.ring_id.multi_index < b.ring_id.multi_index ∨
          (a.ring_id.multi_index = b.ring_id.multi_index ∧
            a.ring_id.ring_index < b.ring_id.ring_index)))) := by
      unfold ring_identifier.lt
      by_cases h1 : a.ring_id.source_index = b.ring_id.source_index
      · by_cases h2 : a.ring_id.multi_index = b.ring_id.multi_index
        · simp [h1, h2]
        · simp [h1, h2]
      · simp [h1]
    rw [hid]
    omega
  · intro a b
    rw [ring_with_direction.equiv_iff]
    constructor
    · rintro ⟨h1, h2⟩
      exact ⟨h1, direction_type.toInt_injective h2⟩
    · rintro ⟨h1, h2⟩
      exact ⟨h1, by rw [h2]⟩

/-! ## One iteration of `aggregate_operations` -/

theorem insert_in_back_concat (rwd : ring_with_direction) (L : List rank_with_rings)
    (b : rank_with_rings) :
    insert_in_back rwd (L ++ [b]) = L ++ [{ b with rings := set_insert rwd b.rings }] := by
  induction L with
  | nil => rfl
  | cons a L ih =>
    cases L with
    | nil => rfl
    | cons a2 L =>
      simp only [List.cons_append] at ih ⊢
      simp [insert_in_back, ih]

theorem survives_iff (turns : List turn) (p : ranked_point) :
    survives turns p = true ↔
      ∃ op, lookup turns p.turn_index p.operation_index = some op ∧
        (op.operation = operation_type.operation_intersection
          ∨ op.operation = operation_type.operation_continue) := by
  unfold survives
  cases h : lookup turns p.turn_index p.operation_index with
  | none => simp
  | some op => simp [operation_type.is_i_or_c]

theorem aggregate_step_skipped {turns : List turn} {p : ranked_point} {op : turn_operation}
    (agg : List rank_with_rings)
    (hop : lookup turns p.turn_index p.operation_index = some op)
    (hk : op.operation.is_i_or_c = false) :
    aggregate_step turns agg p = some agg := by
  unfold operation_type.is_i_or_c at hk
  simp [aggregate_step, hop, hk]

theorem aggregate_step_kept {turns : List turn} {p : ranked_point} {op : turn_operation}
    (agg : List rank_with_rings)
    (hop : lookup turns p.turn_index p.operation_index = some op)
    (hk : op.operation.is_i_or_c = true) :
    (agg = [] ∧ aggregate_step turns agg p
        = some [{ rank := p.rank, rings := [make_rwd p op] }]) ∨
    (∃ L b, agg = L ++ [b] ∧ b.rank ≠ p.rank ∧ aggregate_step turns agg p
        = some (L ++ [b] ++ [{ rank := p.rank, rings := [make_rwd p op] }])) ∨
    (∃ L b, agg = L ++ [b] ∧ b.rank = p.rank ∧ aggregate_step turns agg p
        = some (L ++ [{ rank := b.rank, rings := set_insert (make_rwd p op) b.rings }])) := by
  unfold operation_type.is_i_or_c at hk
  rcases List.eq_nil_or_concat agg with hnil | ⟨L, b, hagg⟩
  · left
    subst hnil
    simp [aggregate_step, hop, hk, insert_in_back, set_insert]
  · right
    rw [List.concat_eq_append] at hagg
    subst hagg
    by_cases hr : b.rank = p.rank
    · right
      refine ⟨L, b, rfl, hr, ?_⟩
      simp [aggregate_step, hop, hk, hr, insert_in_back_concat]
    · left
      refine ⟨L, b, rfl, hr, ?_⟩
      have h2 := insert_in_back_concat (make_rwd p op) (L ++ [b])
        { rank := p.rank, rings := [] }
      simp only [set_insert] at h2
      simp [aggregate_step, hop, hk, hr]
      simpa using h2

/-! ## The ranks of the clusters -/

theorem aggregate_loop_ranks (turns : List turn) (pts : List ranked_point) :
    ∀ agg : List rank_with_rings,
    pts.Pairwise (fun p q => p.rank ≤ q.rank) →
    (∀ p ∈ pts, valid_position turns p.turn_index p.operation_index) →
    (agg.map rank_with_rings.rank).Pairwise (· < ·) →
    (∀ c ∈ agg, ∀ p ∈ pts, c.rank ≤ p.rank) →
    ∃ out, aggregate_loop turns pts agg = some out ∧
      (out.map rank_with_rings.rank).Pairwise (· < ·) ∧
      ∀ r, r ∈ out.map rank_with_rings.rank ↔
        (r ∈ agg.map rank_with_rings.rank
          ∨ ∃ p ∈ pts, survives turns p = true ∧ p.rank = r) := by
  induction pts with
  | nil =>
    intro agg _ _ hs _
    exact ⟨agg, rfl, hs, by simp⟩
  | cons p pts ih =>
    intro agg hsorted hvalid hs hle
    obtain ⟨op, hop⟩ := lookup_isSome_of_valid (hvalid p (by simp))
    obtain ⟨hp_le, hsorted'⟩ := List.pairwise_cons.mp hsorted
    have hvalid' : ∀ q ∈ pts, valid_position turns q.turn_index q.operation_index :=
      fun q hq => hvalid q (by simp [hq])
    cases hk : op.operation.is_i_or_c
    · have hstep := aggregate_step_skipped agg hop hk
      have hsv : survives turns p = false := by simp [survives, hop, hk]
      obtain ⟨out, hout, hpw, hmem⟩ :=
        ih agg hsorted' hvalid' hs (fun c hc q hq => hle c hc q (by simp [hq]))
      refine ⟨out, by simp only [aggregate_loop, hstep, hout], hpw, ?_⟩
      intro r
      rw [hmem r]
      simp [hsv]
    · have hsv : survives turns p = true := by simp [survives, hop, hk]
      rcases aggregate_step_kept agg hop hk with
        ⟨hnil, hstep⟩ | ⟨L, b, hagg, hr, hstep⟩ | ⟨L, b, hagg, hr, hstep⟩
      · obtain ⟨out, hout, hpw, hmem⟩ :=
          ih [{ rank := p.rank, rings := [make_rwd p op] }] hsorted' hvalid' (by simp)
            (by
              intro c hc q hq
              simp only [List.mem_singleton] at hc
              subst hc
              exact hp_le q hq)
        refine ⟨out, by simp only [aggregate_loop, hstep, hout], hpw, ?_⟩
        intro r
        rw [hmem r]
        subst hnil
        simp only [List.map_cons, List.map_nil, List.mem_singleton, List.not_mem_nil,
          false_or, List.exists_mem_cons_iff, hsv, true_and]
        constructor
        · rintro (h | h)
          · exact Or.inl h.symm
          · exact Or.inr h
        · rintro (h | h)
          · exact Or.inl h.symm
          · exact Or.inr h
      · subst hagg
        have hb_le : b.rank ≤ p.rank := hle b (by simp) p (by simp)
        have hb_lt : b.rank < p.rank := lt_of_le_of_ne hb_le hr
        rw [List.map_append, List.pairwise_append] at hs
        obtain ⟨hsL, _, hLb⟩ := hs
        obtain ⟨out, hout, hpw, hmem⟩ :=
          ih (L ++ [b] ++ [{ rank := p.rank, rings := [make_rwd p op] }]) hsorted' hvalid'
            (by
              rw [List.map_append, List.pairwise_append]
              refine ⟨?_, by simp, ?_⟩
              · rw [List.map_append, List.pairwise_append]
                exact ⟨hsL, by simp, hLb⟩
              · intro a ha x hx
                simp only [List.map_cons, List.map_nil, List.mem_singleton] at hx
                subst hx
                rw [List.map_append, List.mem_append] at ha
                rcases ha with ha | ha
                · exact lt_trans (hLb a ha b.rank (by simp)) hb_lt
                · simp only [List.map_cons, List.map_nil, List.mem_singleton] at ha
                  subst ha
                  exact hb_lt)
            (by
              intro c hc q hq
              rw [List.mem_append] at hc
              rcases hc with hc | hc
              · exact hle c hc q (by simp [hq])
              · simp only [List.mem_singleton] at hc
                subst hc
                exact hp_le q hq)
        refine ⟨out, by simp only [aggregate_loop, hstep, hout], hpw, ?_⟩
        intro r
        rw [hmem r]
        simp only [List.map_append, List.map_cons, List.map_nil, List.mem_append,
          List.mem_singleton, List.exists_mem_cons_iff, hsv, true_and]
        constructor
        · rintro ((h | h) | h)
          · exact Or.inl h
          · exact Or.inr (Or.inl h.symm)
          · exact Or.inr (Or.inr h)
        · rintro (h | h | h)
          · exact Or.inl (Or.inl h)
          · exact Or.inl (Or.inr h.symm)
          · exact Or.inr h
      · subst hagg
        obtain ⟨out, hout, hpw, hmem⟩ :=
          ih (L ++ [{ rank := b.rank, rings := set_insert (make_rwd p op) b.rings }])
            hsorted' hvalid'
            (by simpa using hs)
            (by
              intro c hc q hq
              rw [List.mem_append] at hc
              rcases hc with hc | hc
              · exact hle c (by simp [hc]) q (by simp [hq])
              · simp only [List.mem_singleton] at hc
                subst hc
                exact hr ▸ hp_le q hq)
        refine ⟨out, by simp only [aggregate_loop, hstep, hout], hpw, ?_⟩
        intro r
        rw [hmem r]
        simp only [List.map_append, List.map_cons, List.map_nil, List.mem_append,
          List.mem_singleton, List.exists_mem_cons_iff, hsv, true_and]
        constructor
        · rintro (h | h)
          · exact Or.inl h
          · exact Or.inr (Or.inr h)
        · rintro (h | h | h)
          · exact Or.inl h
          · exact Or.inl (Or.inr (by rw [← h, hr]))
          · exact Or.inr h

/-- C3: for ranked points with non-decreasing ranks and valid indices,
`aggregate_operations` produces clusters whose ranks are strictly increasing,
and the ranks that appear are exactly the ranks of the ranked points whose turn
operation is intersection or continue. -/
theorem aggregate_operations_ranks (sbs : Sbs) (aggregation : List rank_with_rings)
    (turns : List turn)
    (hsorted : sbs.m_ranked_points.Pairwise (fun p q => p.rank ≤ q.rank))
    (hvalid : ∀ p ∈ sbs.m_ranked_points,
      valid_position turns p.turn_index p.operation_index) :
    ∃ out, aggregate_operations sbs aggregation turns = some out ∧
      (out.map rank_with_rings.rank).Pairwise (· < ·) ∧
      ∀ r, r ∈ out.map rank_with_rings.rank ↔
        ∃ p ∈ sbs.m_ranked_points, p.rank = r ∧
          ∃ op, lookup turns p.turn_index p.operation_index = some op ∧
            (op.operation = operation_type.operation_intersection
              ∨ op.operation = operation_type.operation_continue) := by
  obtain ⟨out, hout, hpw, hmem⟩ :=
    aggregate_loop_ranks turns sbs.m_ranked_points [] hsorted hvalid (by simp) (by simp)
  refine ⟨out, by simpa [aggregate_operations] using hout, hpw, ?_⟩
  intro r
  rw [hmem r]
  simp only [List.map_nil, List.not_mem_nil, false_or]
  constructor
  · rintro ⟨p, hp, hsv, hr⟩
    exact ⟨p, hp, hr, (survives_iff turns p).mp hsv⟩
  · rintro ⟨p, hp, hr, hop⟩
    exact ⟨p, hp, (survives_iff turns p).mpr hop, hr⟩

/-- The hypotheses of C3 hold for the sample ranked points over the sample turn
table, and C3 applies there. -/
theorem aggregate_operations_ranks_witness :
    sample_sbs.m_ranked_points.Pairwise (fun p q => p.rank ≤ q.rank) ∧
    (∀ p ∈ sample_sbs.m_ranked_points,
      valid_position sample_turns p.turn_index p.operation_index) ∧
    ∃ out, aggregate_operations sample_sbs [empty_cluster] sample_turns = some out ∧
      (out.map rank_with_rings.rank).Pairwise (· < ·) ∧
      ∀ r, r ∈ out.map rank_with_rings.rank ↔
        ∃ p ∈ sample_sbs.m_ranked_points, p.rank = r ∧
          ∃ op, lookup sample_turns p.turn_index p.operation_index = some op ∧
            (op.operation = operation_type.operation_intersection
              ∨ op.operation = operation_type.operation_continue) :=
  ⟨by decide, by decide,
    aggregate_operations_ranks sample_sbs [empty_cluster] sample_turns
      (by decide) (by decide)⟩

/-! ## The filter on the operation -/

theorem operation_type.is_i_or_c_iff (o : operation_type) :
    o.is_i_or_c = true ↔ (o = operation_type.operation_intersection
      ∨ o = operation_type.operation_continue) := by
  cases o <;> simp [operation_type.is_i_or_c]

theorem mem_set_insert {x m : ring_with_direction} {l : List ring_with_direction}
    (h : m ∈ set_insert x l) : m = x ∨ m ∈ l := by
  induction l with
  | nil => simpa [set_insert] using h
  | cons y ys ih =>
    unfold set_insert at h
    split_ifs at h with h1 h2
    · simpa using h
    · rcases List.mem_cons.mp h with h | h
      · exact Or.inr (by simp [h])
      · rcases ih h with h | h
        · exact Or.inl h
        · exact Or.inr (by simp [h])
    · exact Or.inr h

theorem aggregate_loop_filter (turns : List turn) (pts : List ranked_point) :
    ∀ agg : List rank_with_rings,
    (∀ p ∈ pts, valid_position turns p.turn_index p.operation_index) →
    (∀ c ∈ agg, ∀ m ∈ c.rings, m.operation.is_i_or_c = true) →
    ∃ out, aggregate_loop turns pts agg = some out ∧
      (∀ c ∈ out, ∀ m ∈ c.rings, m.operation.is_i_or_c = true) ∧
      aggregate_loop turns (pts.filter (fun p => survives turns p)) agg = some out := by
  induction pts with
  | nil =>
    intro agg _ hagg
    exact ⟨agg, rfl, hagg, rfl⟩
  | cons p pts ih =>
    intro agg hvalid hagg
    obtain ⟨op, hop⟩ := lookup_isSome_of_valid (hvalid p (by simp))
    have hvalid' : ∀ q ∈ pts, valid_position turns q.turn_index q.operation_index :=
      fun q hq => hvalid q (by simp [hq])
    cases hk : op.operation.is_i_or_c
    · have hstep := aggregate_step_skipped agg hop hk
      have hsv : survives turns p = false := by simp [survives, hop, hk]
      obtain ⟨out, hout, hmem, hfil⟩ := ih agg hvalid' hagg
      refine ⟨out, by simp only [aggregate_loop, hstep, hout], hmem, ?_⟩
      rw [List.filter_cons_of_neg (by simp [hsv])]
      exact hfil
    · have hsv : survives turns p = true := by simp [survives, hop, hk]
      have hnew : ∀ m ∈ [make_rwd p op], m.operation.is_i_or_c = true := by
        intro m hm
        simp only [List.mem_singleton] at hm
        subst hm
        exact hk
      have hgo : ∀ next, aggregate_step turns agg p = some next →
          (∀ c ∈ next, ∀ m ∈ c.rings, m.operation.is_i_or_c = true) →
          ∃ out, aggregate_loop turns (p :: pts) agg = some out ∧
            (∀ c ∈ out, ∀ m ∈ c.rings, m.operation.is_i_or_c = true) ∧
            aggregate_loop turns ((p :: pts).filter (fun p => survives turns p)) agg
              = some out := by
        intro next hstep hnext
        obtain ⟨out, hout, hmem, hfil⟩ := ih next hvalid' hnext
        refine ⟨out, by simp only [aggregate_loop, hstep, hout], hmem, ?_⟩
        rw [List.filter_cons_of_pos (by simp [hsv])]
        simp only [aggregate_loop, hstep, hfil]
      rcases aggregate_step_kept agg hop hk with
        ⟨hnil, hstep⟩ | ⟨L, b, hagg', hr, hstep⟩ | ⟨L, b, hagg', hr, hstep⟩
      · refine hgo _ hstep ?_
        intro c hc
        simp only [List.mem_singleton] at hc
        subst hc
        exact hnew
      · refine hgo _ hstep ?_
        intro c hc
        rw [List.mem_append] at hc
        rcases hc with hc | hc
        · exact hagg c (hagg' ▸ hc)
        · simp only [List.mem_singleton] at hc
          subst hc
          exact hnew
      · refine hgo _ hstep ?_
        intro c hc
        rw [List.mem_append] at hc
        rcases hc with hc | hc
        · exact hagg c (by rw [hagg']; simp [hc])
        · simp only [List.mem_singleton] at hc
          subst hc
          intro m hm
          rcases mem_set_insert hm with h | h
          · exact hnew m (by simp [h])
          · exact hagg b (by rw [hagg']; simp) m h

/-- C4: for ranked points with valid indices, every member of every cluster
that `aggregate_operations` produces is tagged intersection or continue; a
ranked point whose turn operation is union, blocked or none leaves the
aggregation as it is, and the result is the one obtained from the sequence with
those points removed. -/
theorem aggregate_operations_filter (sbs : Sbs) (aggregation : List rank_with_rings)
    (turns : List turn)
    (hvalid : ∀ p ∈ sbs.m_ranked_points,
      valid_position turns p.turn_index p.operation_index) :
    ∃ out, aggregate_operations sbs aggregation turns = some out ∧
      (∀ c ∈ out, ∀ m ∈ c.rings, m.operation = operation_type.operation_intersection
        ∨ m.operation = operation_type.operation_continue) ∧
      aggregate_operations
        { m_ranked_points := sbs.m_ranked_points.filter (fun p => survives turns p) }
        aggregation turns = some out ∧
      (∀ (agg : List rank_with_rings) (p : ranked_point) (op : turn_operation),
        lookup turns p.turn_index p.operation_index = some op →
        (op.operation = operation_type.operation_union
          ∨ op.operation = operation_type.operation_blocked
          ∨ op.operation = operation_type.operation_none) →
        aggregate_step turns agg p = some agg) := by
  obtain ⟨out, hout, hmem, hfil⟩ :=
    aggregate_loop_filter turns sbs.m_ranked_points [] hvalid (by simp)
  refine ⟨out, by simpa [aggregate_operations] using hout, ?_,
    by simpa [aggregate_operations] using hfil, ?_⟩
  · intro c hc m hm
    exact (operation_type.is_i_or_c_iff _).mp (hmem c hc m hm)
  · intro agg p op hop hkind
    refine aggregate_step_skipped agg hop ?_
    rcases hkind with h | h | h <;> rw [h] <;> rfl

/-- The hypothesis of C4 holds for the sample ranked points over the sample turn
table, and C4 applies there. -/
theorem aggregate_operations_filter_witness :
    (∀ p ∈ sample_sbs.m_ranked_points,
      valid_position sample_turns p.turn_index p.operation_index) ∧
    ∃ out, aggregate_operations sample_sbs [] sample_turns = some out ∧
      (∀ c ∈ out, ∀ m ∈ c.rings, m.operation = operation_type.operation_intersection
        ∨ m.operation = operation_type.operation_continue) ∧
      aggregate_operations
        { m_ranked_points :=
            sample_sbs.m_ranked_points.filter (fun p => survives sample_turns p) }
        [] sample_turns = some out ∧
      (∀ (agg : List rank_with_rings) (p : ranked_point) (op : turn_operation),
        lookup sample_turns p.turn_index p.operation_index = some op →
        (op.operation = operation_type.operation_union
          ∨ op.operation = operation_type.operation_blocked
          ∨ op.operation = operation_type.operation_none) →
        aggregate_step sample_turns agg p = some agg) :=
  ⟨by decide, aggregate_operations_filter sample_sbs [] sample_turns (by decide)⟩

/-! ## Facts on `set_insert` -/

theorem ring_with_direction.lt_trans {a b c : ring_with_direction}
    (hab : a.lt b = true) (hbc : b.lt c = true) : a.lt c = true := by
  rw [ring_with_direction.lt_iff] at hab hbc ⊢
  omega

theorem ring_with_direction.not_lt_of_same_key {a b : ring_with_direction}
    (hid : a.ring_id = b.ring_id) (hdir : a.direction = b.direction) :
    a.lt b = false := by
  cases h : a.lt b
  · rfl
  · rw [ring_with_direction.lt_iff, hid, hdir] at h
    omega

theorem mem_set_insert_of_mem {x m : ring_with_direction} {l : List ring_with_direction}
    (h : m ∈ l) : m ∈ set_insert x l := by
  induction l with
  | nil => simp at h
  | cons y ys ih =>
    unfold set_insert
    split_ifs with h1 h2
    · simp [List.mem_cons.mp h]
    · rcases List.mem_cons.mp h with h | h
      · simp [h]
      · simp [ih h]
    · exact h

theorem mem_set_insert_self {x : ring_with_direction} {l : List ring_with_direction}
    (h : ∀ y ∈ l, ¬ (x.ring_id = y.ring_id ∧ x.direction = y.direction)) :
    x ∈ set_insert x l := by
  induction l with
  | nil => simp [set_insert]
  | cons y ys ih =>
    unfold set_insert
    split_ifs with h1 h2
    · simp
    · simp [ih (fun z hz => h z (by simp [hz]))]
    · exfalso
      have he : x.equiv y = true := by simp [ring_with_direction.equiv, h1, h2]
      rw [ring_with_direction.equiv_iff] at he
      exact h y (by simp) ⟨he.1, direction_type.toInt_injective he.2⟩

theorem set_insert_sorted {x : ring_with_direction} {l : List ring_with_direction}
    (h : l.Pairwise (fun a b => a.lt b = true)) :
    (set_insert x l).Pairwise (fun a b => a.lt b = true) := by
  induction l with
  | nil => simp [set_insert]
  | cons y ys ih =>
    obtain ⟨hy, hys⟩ := List.pairwise_cons.mp h
    unfold set_insert
    split_ifs with h1 h2
    · refine List.pairwise_cons.mpr ⟨?_, h⟩
      intro z hz
      rcases List.mem_cons.mp hz with hz | hz
      · rw [hz]; exact h1
      · exact ring_with_direction.lt_trans h1 (hy z hz)
    · refine List.pairwise_cons.mpr ⟨?_, ih hys⟩
      intro z hz
      rcases mem_set_insert hz with hz | hz
      · rw [hz]; exact h2
      · exact hy z hz
    · exact h

theorem distinct_keys_of_sorted {l : List ring_with_direction}
    (h : l.Pairwise (fun a b => a.lt b = true)) :
    l.Pairwise (fun a b => ¬ (a.ring_id = b.ring_id ∧ a.direction = b.direction)) := by
  refine List.Pairwise.imp ?_ h
  intro a b hab hkey
  rw [ring_with_direction.not_lt_of_same_key hkey.1 hkey.2] at hab
  exact absurd hab (by decide)

/-! ## Invariants of the loop of `aggregate_operations` -/

theorem valid_of_lookup_some {turns : List turn} {ti : Nat} {oi : Int} {op : turn_operation}
    (h : lookup turns ti oi = some op) : valid_position turns ti oi := by
  unfold lookup at h
  cases ht : turns.get? ti with
  | none =>
    rw [ht] at h
    exact absurd h (by simp)
  | some t =>
    rw [ht] at h
    simp only at h
    refine ⟨?_, ?_⟩
    · by_contra hlt
      rw [List.get?_eq_none.mpr (by omega)] at ht
      exact absurd ht (by simp)
    · unfold turn.operation_at at h
      by_cases h0 : oi = 0
      · exact Or.inl h0
      · by_cases h1 : oi = 1
        · exact Or.inr h1
        · simp [h0, h1] at h

theorem aggregate_step_none {turns : List turn} {p : ranked_point}
    (agg : List rank_with_rings)
    (hop : lookup turns p.turn_index p.operation_index = none) :
    aggregate_step turns agg p = none := by
  simp [aggregate_step, hop]

theorem aggregate_step_cases {turns : List turn} {agg agg1 : List rank_with_rings}
    {p : ranked_point} (h : aggregate_step turns agg p = some agg1) :
    ∃ op, lookup turns p.turn_index p.operation_index = some op ∧
      ((op.operation.is_i_or_c = false ∧ agg1 = agg) ∨
       (op.operation.is_i_or_c = true ∧
         ((agg = [] ∧ agg1 = [{ rank := p.rank, rings := [make_rwd p op] }]) ∨
          (∃ L b, agg = L ++ [b] ∧ b.rank ≠ p.rank ∧
            agg1 = L ++ [b] ++ [{ rank := p.rank, rings := [make_rwd p op] }]) ∨
          (∃ L b, agg = L ++ [b] ∧ b.rank = p.rank ∧
            agg1 = L ++ [{ rank := b.rank,
                           rings := set_insert (make_rwd p op) b.rings }])))) := by
  cases hop : lookup turns p.turn_index p.operation_index with
  | none =>
    rw [aggregate_step_none agg hop] at h
    exact absurd h (by simp)
  | some op =>
    refine ⟨op, rfl, ?_⟩
    cases hk : op.operation.is_i_or_c
    · left
      rw [aggregate_step_skipped agg hop hk] at h
      exact ⟨rfl, (Option.some.inj h).symm⟩
    · right
      refine ⟨rfl, ?_⟩
      rcases aggregate_step_kept agg hop hk with
        ⟨hnil, hstep⟩ | ⟨L, b, hagg, hr, hstep⟩ | ⟨L, b, hagg, hr, hstep⟩
      · rw [hstep] at h
        exact Or.inl ⟨hnil, (Option.some.inj h).symm⟩
      · rw [hstep] at h
        exact Or.inr (Or.inl ⟨L, b, hagg, hr, (Option.some.inj h).symm⟩)
      · rw [hstep] at h
        exact Or.inr (Or.inr ⟨L, b, hagg, hr, (Option.some.inj h).symm⟩)

theorem aggregate_loop_isSome (turns : List turn) (pts : List ranked_point) :
    ∀ agg : List rank_with_rings,
    (∀ p ∈ pts, valid_position turns p.turn_index p.operation_index) →
    ∃ out, aggregate_loop turns pts agg = some out := by
  induction pts with
  | nil => intro agg _; exact ⟨agg, rfl⟩
  | cons p pts ih =>
    intro agg hvalid
    obtain ⟨op, hop⟩ := lookup_isSome_of_valid (hvalid p (by simp))
    have hvalid2 : ∀ q ∈ pts, valid_position turns q.turn_index q.operation_index :=
      fun q hq => hvalid q (by simp [hq])
    have hstep : ∃ agg1, aggregate_step turns agg p = some agg1 := by
      cases hk : op.operation.is_i_or_c
      · exact ⟨agg, aggregate_step_skipped agg hop hk⟩
      · rcases aggregate_step_kept agg hop hk with
          ⟨_, hstep⟩ | ⟨_, _, _, _, hstep⟩ | ⟨_, _, _, _, hstep⟩ <;> exact ⟨_, hstep⟩
    obtain ⟨agg1, hstep⟩ := hstep
    obtain ⟨out, hout⟩ := ih agg1 hvalid2
    exact ⟨out, by simp only [aggregate_loop, hstep, hout]⟩

theorem aggregate_loop_cons_some {turns : List turn} {p : ranked_point}
    {pts : List ranked_point} {agg out : List rank_with_rings}
    (h : aggregate_loop turns (p :: pts) agg = some out) :
    ∃ agg1, aggregate_step turns agg p = some agg1 ∧ aggregate_loop turns pts agg1 = some out := by
  cases hstep : aggregate_step turns agg p with
  | none => simp [aggregate_loop, hstep] at h
  | some agg1 => exact ⟨agg1, rfl, by simpa only [aggregate_loop, hstep] using h⟩

theorem aggregate_loop_valid_of_some (turns : List turn) (pts : List ranked_point) :
    ∀ agg out : List rank_with_rings, aggregate_loop turns pts agg = some out →
    ∀ p ∈ pts, valid_position turns p.turn_index p.operation_index := by
  induction pts with
  | nil => intro _ _ _ p hp; simp at hp
  | cons q pts ih =>
    intro agg out h p hp
    obtain ⟨agg1, hstep, hrest⟩ := aggregate_loop_cons_some h
    rcases List.mem_cons.mp hp with hp | hp
    · obtain ⟨op, hop, _⟩ := aggregate_step_cases hstep
      rw [hp]
      exact valid_of_lookup_some hop
    · exact ih agg1 out hrest p hp

theorem aggregate_loop_invariant (turns : List turn) (P : rank_with_rings → Prop)
    (pts : List ranked_point) :
    (∀ p ∈ pts, ∀ op, lookup turns p.turn_index p.operation_index = some op →
      op.operation.is_i_or_c = true → P { rank := p.rank, rings := [make_rwd p op] }) →
    (∀ p ∈ pts, ∀ op, lookup turns p.turn_index p.operation_index = some op →
      op.operation.is_i_or_c = true → ∀ c, P c → c.rank = p.rank →
      P { rank := c.rank, rings := set_insert (make_rwd p op) c.rings }) →
    ∀ agg out : List rank_with_rings, (∀ c ∈ agg, P c) →
      aggregate_loop turns pts agg = some out → ∀ c ∈ out, P c := by
  induction pts with
  | nil =>
    intro _ _ agg out hagg h
    simp only [aggregate_loop] at h
    rw [← Option.some.inj h]
    exact hagg
  | cons p pts ih =>
    intro hnew hins agg out hagg h
    obtain ⟨agg1, hstep, hrest⟩ := aggregate_loop_cons_some h
    refine ih (fun q hq => hnew q (by simp [hq])) (fun q hq => hins q (by simp [hq]))
      agg1 out ?_ hrest
    obtain ⟨op, hop, hcases⟩ := aggregate_step_cases hstep
    rcases hcases with ⟨_, h1⟩ | ⟨hk, ⟨hnil, h1⟩ | ⟨L, b, hL, hr, h1⟩ | ⟨L, b, hL, hr, h1⟩⟩
    · rw [h1]; exact hagg
    · rw [h1]
      intro c hc
      simp only [List.mem_singleton] at hc
      rw [hc]
      exact hnew p (by simp) op hop hk
    · rw [h1]
      intro c hc
      rw [List.mem_append] at hc
      rcases hc with hc | hc
      · exact hagg c (hL ▸ hc)
      · simp only [List.mem_singleton] at hc
        rw [hc]
        exact hnew p (by simp) op hop hk
    · rw [h1]
      intro c hc
      rw [List.mem_append] at hc
      rcases hc with hc | hc
      · exact hagg c (by rw [hL]; simp [hc])
      · simp only [List.mem_singleton] at hc
        rw [hc]
        exact hins p (by simp) op hop hk b (hagg b (by rw [hL]; simp)) hr

theorem aggregate_loop_members (turns : List turn) (pts : List ranked_point)
    (out : List rank_with_rings) (h : aggregate_loop turns pts [] = some out) :
    ∀ c ∈ out, c.rings ≠ [] ∧ c.rings.Pairwise (fun a b => a.lt b = true) ∧
      ∀ m ∈ c.rings, ∃ p ∈ pts, ∃ op,
        lookup turns p.turn_index p.operation_index = some op ∧
        op.operation.is_i_or_c = true ∧ p.rank = c.rank ∧ m = make_rwd p op := by
  refine aggregate_loop_invariant turns
    (fun c => c.rings ≠ [] ∧ c.rings.Pairwise (fun a b => a.lt b = true) ∧
      ∀ m ∈ c.rings, ∃ p ∈ pts, ∃ op,
        lookup turns p.turn_index p.operation_index = some op ∧
        op.operation.is_i_or_c = true ∧ p.rank = c.rank ∧ m = make_rwd p op)
    pts ?_ ?_ [] out (by simp) h
  · intro p hp op hop hk
    refine ⟨by simp, by simp, ?_⟩
    intro m hm
    simp only [List.mem_singleton] at hm
    exact ⟨p, hp, op, hop, hk, rfl, hm⟩
  · intro p hp op hop hk c hc hr
    obtain ⟨hne, hsorted, hmem⟩ := hc
    refine ⟨?_, set_insert_sorted hsorted, ?_⟩
    · obtain ⟨m, hm⟩ := List.exists_mem_of_ne_nil _ hne
      exact List.ne_nil_of_mem (mem_set_insert_of_mem hm)
    · intro m hm
      rcases mem_set_insert hm with hm | hm
      · exact ⟨p, hp, op, hop, hk, hr.symm, hm⟩
      · exact hmem m hm

theorem aggregate_operations_eq_loop (sbs : Sbs) (aggregation : List rank_with_rings)
    (turns : List turn) :
    aggregate_operations sbs aggregation turns
      = aggregate_loop turns sbs.m_ranked_points [] := by
  simp [aggregate_operations]

theorem member_lookup {turns : List turn} {pts : List ranked_point}
    {out : List rank_with_rings} (h : aggregate_loop turns pts [] = some out)
    {c : rank_with_rings} (hc : c ∈ out) {m : ring_with_direction} (hm : m ∈ c.rings) :
    ∃ op, lookup turns m.turn_index m.operation_index = some op ∧
      m.operation = op.operation ∧ m.region_id = op.enriched.region_id ∧
      m.isolated = op.enriched.isolated := by
  obtain ⟨p, _, op, hop, _, _, hmk⟩ := (aggregate_loop_members turns pts out h c hc).2.2 m hm
  rw [hmk]
  exact ⟨op, hop, rfl, rfl, rfl⟩

/-! ## Safety of the lookups -/

/-- C11: when every ranked point has a valid position in the turn table,
`aggregate_operations` makes no out-of-range lookup and returns its clusters;
every member of every cluster carries a valid position of the same table, so
`traversable(turns)` returns a truth value on every produced cluster. The
lookup is made for every ranked point before the filter: a ranked point with an
out-of-range position makes the iteration fail whatever the aggregation is. -/
theorem aggregate_operations_in_range (sbs : Sbs) (aggregation : List rank_with_rings)
    (turns : List turn)
    (hvalid : ∀ p ∈ sbs.m_ranked_points,
      valid_position turns p.turn_index p.operation_index) :
    ∃ out, aggregate_operations sbs aggregation turns = some out ∧
      (∀ c ∈ out, ∀ m ∈ c.rings, valid_position turns m.turn_index m.operation_index) ∧
      (∀ c ∈ out, ∃ b, c.traversable turns = some b) ∧
      (∀ (agg : List rank_with_rings) (p : ranked_point),
        lookup turns p.turn_index p.operation_index = none →
        aggregate_step turns agg p = none) := by
  obtain ⟨out, hout⟩ := aggregate_loop_isSome turns sbs.m_ranked_points [] hvalid
  have hmem : ∀ c ∈ out, ∀ m ∈ c.rings,
      valid_position turns m.turn_index m.operation_index := by
    intro c hc m hm
    obtain ⟨op, hop, _⟩ := member_lookup hout hc hm
    exact valid_of_lookup_some hop
  refine ⟨out, by rw [aggregate_operations_eq_loop]; exact hout, hmem, ?_, ?_⟩
  · intro c hc
    obtain ⟨b, hb, _⟩ := traversable_loop_spec turns c.rings (hmem c hc)
    exact ⟨b, hb⟩
  · intro agg p hnone
    exact aggregate_step_none agg hnone

/-- The hypothesis of C11 holds for the sample ranked points over the sample turn
table, and C11 applies there. -/
theorem aggregate_operations_in_range_witness :
    (∀ p ∈ sample_sbs.m_ranked_points,
      valid_position sample_turns p.turn_index p.operation_index) ∧
    ∃ out, aggregate_operations sample_sbs [pair_cluster] sample_turns = some out ∧
      (∀ c ∈ out, ∀ m ∈ c.rings,
        valid_position sample_turns m.turn_index m.operation_index) ∧
      (∀ c ∈ out, ∃ b, c.traversable sample_turns = some b) ∧
      (∀ (agg : List rank_with_rings) (p : ranked_point),
        lookup sample_turns p.turn_index p.operation_index = none →
        aggregate_step sample_turns agg p = none) :=
  ⟨by decide,
    aggregate_operations_in_range sample_sbs [pair_cluster] sample_turns (by decide)⟩

/-! ## The fields of the members -/

/-- C16: for every member of every cluster that `aggregate_operations` produces
over a turn table (it produces one whenever the positions are valid), the
fields operation, region_id and isolated are those of the turn operation at the
member's position in that table; hence `is_isolated()` of a produced cluster is
true exactly when the turn operation of every member is marked isolated. -/
theorem aggregate_operations_member_fields (sbs : Sbs) (aggregation : List rank_with_rings)
    (turns : List turn) :
    ((∀ p ∈ sbs.m_ranked_points, valid_position turns p.turn_index p.operation_index) →
      ∃ out, aggregate_operations sbs aggregation turns = some out) ∧
    ∀ out, aggregate_operations sbs aggregation turns = some out →
      (∀ c ∈ out, ∀ m ∈ c.rings,
        ∃ op, lookup turns m.turn_index m.operation_index = some op ∧
          m.operation = op.operation ∧ m.region_id = op.enriched.region_id ∧
          m.isolated = op.enriched.isolated) ∧
      (∀ c ∈ out, (c.is_isolated = true ↔
        ∀ m ∈ c.rings, ∃ op, lookup turns m.turn_index m.operation_index = some op ∧
          op.enriched.isolated = true)) := by
  refine ⟨fun hvalid => ?_, fun out hout => ?_⟩
  · obtain ⟨out, hout⟩ := aggregate_loop_isSome turns sbs.m_ranked_points [] hvalid
    exact ⟨out, by rw [aggregate_operations_eq_loop]; exact hout⟩
  · rw [aggregate_operations_eq_loop] at hout
    refine ⟨fun c hc m hm => member_lookup hout hc hm, fun c hc => ?_⟩
    unfold rank_with_rings.is_isolated
    rw [is_isolated_loop_iff]
    constructor
    · intro h m hm
      obtain ⟨op, hop, _, _, hiso⟩ := member_lookup hout hc hm
      exact ⟨op, hop, by rw [← hiso]; exact h m hm⟩
    · intro h m hm
      obtain ⟨op, hop, _, _, hiso⟩ := member_lookup hout hc hm
      obtain ⟨op2, hop2, hiso2⟩ := h m hm
      rw [hop] at hop2
      rw [hiso, Option.some.inj hop2]
      exact hiso2

/-! ## Produced clusters are not empty -/

/-- C17: every cluster that `aggregate_operations` produces (it produces one
whenever the positions are valid) has at least one member, and therefore
`all_to()` and `all_from()` are never both true on it; both are false on a
cluster that has a member with direction `dir_to` and one with `dir_from`. -/
theorem aggregate_operations_nonempty (sbs : Sbs) (aggregation : List rank_with_rings)
    (turns : List turn) :
    ((∀ p ∈ sbs.m_ranked_points, valid_position turns p.turn_index p.operation_index) →
      ∃ out, aggregate_operations sbs aggregation turns = some out) ∧
    (∀ out, aggregate_operations sbs aggregation turns = some out →
      ∀ c ∈ out, c.rings ≠ [] ∧ ¬ (c.all_to = true ∧ c.all_from = true)) ∧
    (∀ c : rank_with_rings,
      (∃ m ∈ c.rings, m.direction = direction_type.dir_to) →
      (∃ m ∈ c.rings, m.direction = direction_type.dir_from) →
      c.all_to = false ∧ c.all_from = false) := by
  refine ⟨fun hvalid => ?_, fun out hout c hc => ?_, fun c hto hfrom => ?_⟩
  · obtain ⟨out, hout⟩ := aggregate_loop_isSome turns sbs.m_ranked_points [] hvalid
    exact ⟨out, by rw [aggregate_operations_eq_loop]; exact hout⟩
  · rw [aggregate_operations_eq_loop] at hout
    have hne := (aggregate_loop_members turns _ out hout c hc).1
    exact ⟨hne, fun hboth => hne ((all_equal_loop_both_iff_nil c.rings).mp hboth)⟩
  · obtain ⟨m1, hm1, hd1⟩ := hto
    obtain ⟨m2, hm2, hd2⟩ := hfrom
    constructor
    · cases h : c.all_to
      · rfl
      · have := (all_equal_loop_iff _ _).mp h m2 hm2
        rw [hd2] at this
        exact absurd this (by decide)
    · cases h : c.all_from
      · rfl
      · have := (all_equal_loop_iff _ _).mp h m1 hm1
        rw [hd1] at this
        exact absurd this (by decide)

/-! ## The output does not depend on the previous contents -/

/-- C18: the aggregation that `aggregate_operations` leaves in its output vector
does not depend on what the vector held before the call; so a second call with
the same ranked points and turn table on its own output returns the same
aggregation. -/
theorem aggregate_operations_frame (sbs : Sbs) (turns : List turn)
    (before1 before2 : List rank_with_rings) :
    aggregate_operations sbs before1 turns = aggregate_operations sbs before2 turns ∧
    ∀ out, aggregate_operations sbs before1 turns = some out →
      aggregate_operations sbs out turns = some out := by
  refine ⟨?_, fun out hout => ?_⟩
  · rw [aggregate_operations_eq_loop, aggregate_operations_eq_loop]
  · rw [aggregate_operations_eq_loop] at hout ⊢
    exact hout

/-! ## Termination of the traverser -/

theorem turn.finalize_count {t t2 : turn} {oi : Int} (h : t.finalize oi = some t2) :
    unvisited_count [t2] + 1 = unvisited_count [t] := by
  unfold turn.finalize at h
  by_cases h0 : oi = 0
  · by_cases hv : t.operations.1.visited = visit_info.unvisited
    · simp only [h0, hv, if_true] at h
      rw [← Option.some.inj h]
      simp only [unvisited_count, hv, if_true]
      simp
      omega
    · simp [h0, hv] at h
  · by_cases h1 : oi = 1
    · by_cases hv : t.operations.2.visited = visit_info.unvisited
      · simp only [h0, h1, hv, if_true, if_false] at h
        rw [← Option.some.inj h]
        simp only [unvisited_count, hv, if_true]
        simp
      · simp [h0, h1, hv] at h
    · simp [h0, h1] at h

theorem unvisited_count_cons (t : turn) (rest : List turn) :
    unvisited_count (t :: rest) = unvisited_count [t] + unvisited_count rest := by
  simp [unvisited_count]

theorem finalize_step_count (turns : List turn) :
    ∀ (ti : Nat) (oi : Int) (turns2 : List turn), finalize_step turns ti oi = some turns2 →
    unvisited_count turns2 + 1 = unvisited_count turns ∧ turns2.length = turns.length := by
  induction turns with
  | nil => intro ti oi turns2 h; simp [finalize_step] at h
  | cons t rest ih =>
    intro ti oi turns2 h
    cases ti with
    | zero =>
      cases hf : t.finalize oi with
      | none => simp [finalize_step, hf] at h
      | some t2 =>
        simp only [finalize_step, hf] at h
        rw [← Option.some.inj h]
        have hc := turn.finalize_count hf
        rw [unvisited_count_cons t2, unvisited_count_cons t]
        exact ⟨by omega, by simp⟩
    | succ n =>
      cases hf : finalize_step rest n oi with
      | none => simp [finalize_step, hf] at h
      | some rest2 =>
        simp only [finalize_step, hf] at h
        rw [← Option.some.inj h]
        obtain ⟨hc, hl⟩ := ih n oi rest2 hf
        rw [unvisited_count_cons t rest2, unvisited_count_cons t rest]
        exact ⟨by omega, by simp [hl]⟩

theorem unvisited_count_le (turns : List turn) :
    unvisited_count turns ≤ 2 * turns.length := by
  induction turns with
  | nil => simp [unvisited_count]
  | cons t rest ih =>
    simp only [unvisited_count, List.length_cons]
    split_ifs <;> omega

theorem traverse_count (steps : List (Nat × Int)) :
    ∀ turns final : List turn, traverse turns steps = some final →
    steps.length + unvisited_count final = unvisited_count turns
      ∧ final.length = turns.length := by
  induction steps with
  | nil =>
    intro turns final h
    simp only [traverse] at h
    rw [← Option.some.inj h]
    simp
  | cons s rest ih =>
    intro turns final h
    cases hf : finalize_step turns s.1 s.2 with
    | none => simp [traverse, hf] at h
    | some next =>
      simp only [traverse, hf] at h
      obtain ⟨hc, hl⟩ := finalize_step_count turns s.1 s.2 next hf
      obtain ⟨hc2, hl2⟩ := ih next final h
      simp only [List.length_cons]
      exact ⟨by omega, by omega⟩

/-- C12: on a turn table with `N = 2 * turns.length` turn operations, a
traversal that performs the finalization steps `steps` performs at most `N` of
them: every step finalizes exactly one operation that was unvisited, so the
number of steps plus the number of operations still unvisited is the number
unvisited at the start; once no unvisited operation remains, no further step is
possible. -/
theorem traverse_bounded (turns final : List turn) (steps : List (Nat × Int))
    (h : traverse turns steps = some final) :
    steps.length + unvisited_count final = unvisited_count turns ∧
    steps.length ≤ 2 * turns.length ∧
    (∀ (t t2 : List turn) (ti : Nat) (oi : Int), finalize_step t ti oi = some t2 →
      unvisited_count t2 < unvisited_count t) ∧
    (unvisited_count final = 0 → ∀ (ti : Nat) (oi : Int), finalize_step final ti oi = none) := by
  obtain ⟨hc, _⟩ := traverse_count steps turns final h
  have hle := unvisited_count_le turns
  refine ⟨hc, by omega, ?_, ?_⟩
  · intro t t2 ti oi hf
    have := (finalize_step_count t ti oi t2 hf).1
    omega
  · intro hzero ti oi
    cases hf : finalize_step final ti oi with
    | none => rfl
    | some t2 =>
      have := (finalize_step_count final ti oi t2 hf).1
      omega

/-- The hypothesis of C12 holds for the traversal of the sample turn table that
finalizes its two unvisited operations, and C12 applies there. -/
theorem traverse_bounded_witness :
    traverse sample_turns [(0, 0), (1, 0)] = some sample_turns_exhausted ∧
    ([((0 : Nat), (0 : Int)), (1, 0)].length + unvisited_count sample_turns_exhausted
        = unvisited_count sample_turns ∧
      [((0 : Nat), (0 : Int)), (1, 0)].length ≤ 2 * sample_turns.length ∧
      (∀ (t t2 : List turn) (ti : Nat) (oi : Int), finalize_step t ti oi = some t2 →
        unvisited_count t2 < unvisited_count t) ∧
      (unvisited_count sample_turns_exhausted = 0 →
        ∀ (ti : Nat) (oi : Int), finalize_step sample_turns_exhausted ti oi = none)) :=
  ⟨by decide,
    traverse_bounded sample_turns sample_turns_exhausted [(0, 0), (1, 0)] (by decide)⟩

/-! ## The first member of a key is the one kept -/

theorem aggregate_loop_append (turns : List turn) (xs ys : List ranked_point) :
    ∀ agg out : List rank_with_rings, aggregate_loop turns (xs ++ ys) agg = some out →
    ∃ mid, aggregate_loop turns xs agg = some mid ∧ aggregate_loop turns ys mid = some out := by
  induction xs with
  | nil => intro agg out h; exact ⟨agg, rfl, h⟩
  | cons x xs ih =>
    intro agg out h
    rw [List.cons_append] at h
    obtain ⟨agg1, hstep, hrest⟩ := aggregate_loop_cons_some h
    obtain ⟨mid, hmid, hout⟩ := ih agg1 out hrest
    exact ⟨mid, by simp only [aggregate_loop, hstep, hmid], hout⟩

theorem aggregate_step_persist {turns : List turn} {agg agg1 : List rank_with_rings}
    {p : ranked_point} (h : aggregate_step turns agg p = some agg1)
    {c : rank_with_rings} (hc : c ∈ agg) {m : ring_with_direction} (hm : m ∈ c.rings) :
    ∃ c1 ∈ agg1, c1.rank = c.rank ∧ m ∈ c1.rings := by
  obtain ⟨op, _, hcases⟩ := aggregate_step_cases h
  rcases hcases with ⟨_, h1⟩ | ⟨_, ⟨hnil, _⟩ | ⟨L, b, hL, _, h1⟩ | ⟨L, b, hL, _, h1⟩⟩
  · exact ⟨c, h1 ▸ hc, rfl, hm⟩
  · rw [hnil] at hc
    simp at hc
  · exact ⟨c, by rw [h1, ← hL]; simp [hc], rfl, hm⟩
  · rw [hL, List.mem_append] at hc
    rcases hc with hc | hc
    · exact ⟨c, by rw [h1]; simp [hc], rfl, hm⟩
    · simp only [List.mem_singleton] at hc
      refine ⟨{ rank := b.rank, rings := set_insert (make_rwd p op) b.rings },
        by rw [h1]; simp, by rw [hc], ?_⟩
      rw [hc] at hm
      exact mem_set_insert_of_mem hm

theorem aggregate_loop_persist (turns : List turn) (pts : List ranked_point) :
    ∀ agg out : List rank_with_rings, aggregate_loop turns pts agg = some out →
    ∀ c ∈ agg, ∀ m ∈ c.rings, ∃ c1 ∈ out, c1.rank = c.rank ∧ m ∈ c1.rings := by
  induction pts with
  | nil =>
    intro agg out h c hc m hm
    simp only [aggregate_loop] at h
    exact ⟨c, (Option.some.inj h) ▸ hc, rfl, hm⟩
  | cons p pts ih =>
    intro agg out h c hc m hm
    obtain ⟨agg1, hstep, hrest⟩ := aggregate_loop_cons_some h
    obtain ⟨c1, hc1, hr1, hm1⟩ := aggregate_step_persist hstep hc hm
    obtain ⟨c2, hc2, hr2, hm2⟩ := ih agg1 out hrest c1 hc1 m hm1
    exact ⟨c2, hc2, hr2.trans hr1, hm2⟩

theorem aggregate_step_inserts {turns : List turn} {agg agg1 : List rank_with_rings}
    {p : ranked_point} {op : turn_operation}
    (h : aggregate_step turns agg p = some agg1)
    (hop : lookup turns p.turn_index p.operation_index = some op)
    (hk : op.operation.is_i_or_c = true)
    (hfirst : ∀ c ∈ agg, c.rank = p.rank → ∀ m ∈ c.rings,
      ¬ (m.ring_id = p.ring_id ∧ m.direction = p.direction)) :
    ∃ c1 ∈ agg1, c1.rank = p.rank ∧ make_rwd p op ∈ c1.rings := by
  obtain ⟨op2, hop2, hcases⟩ := aggregate_step_cases h
  rw [hop] at hop2
  have hop_eq : op2 = op := (Option.some.inj hop2).symm
  subst hop_eq
  rcases hcases with ⟨hk2, _⟩ | ⟨_, ⟨_, h1⟩ | ⟨L, b, _, _, h1⟩ | ⟨L, b, hL, hr, h1⟩⟩
  · rw [hk] at hk2
    exact absurd hk2 (by decide)
  · exact ⟨{ rank := p.rank, rings := [make_rwd p op2] }, by rw [h1]; simp, rfl, by simp⟩
  · exact ⟨{ rank := p.rank, rings := [make_rwd p op2] }, by rw [h1]; simp, rfl, by simp⟩
  · refine ⟨{ rank := b.rank, rings := set_insert (make_rwd p op2) b.rings },
      by rw [h1]; simp, hr, ?_⟩
    refine mem_set_insert_self ?_
    intro y hy hkey
    exact hfirst b (by rw [hL]; simp) hr y hy ⟨hkey.1.symm, hkey.2.symm⟩

theorem first_member_kept {turns : List turn} {pre post : List ranked_point}
    {p : ranked_point} {op : turn_operation} {out : List rank_with_rings}
    (h : aggregate_loop turns (pre ++ p :: post) [] = some out)
    (hop : lookup turns p.turn_index p.operation_index = some op)
    (hk : op.operation.is_i_or_c = true)
    (hfirst : ∀ q ∈ pre, survives turns q = true → q.rank = p.rank →
      ¬ (q.ring_id = p.ring_id ∧ q.direction = p.direction)) :
    ∃ c ∈ out, c.rank = p.rank ∧ make_rwd p op ∈ c.rings := by
  obtain ⟨mid, hmid, hrest⟩ := aggregate_loop_append turns pre (p :: post) [] out h
  obtain ⟨agg1, hstep, hpost⟩ := aggregate_loop_cons_some hrest
  have hmembers := aggregate_loop_members turns pre mid hmid
  obtain ⟨c1, hc1, hr1, hm1⟩ := aggregate_step_inserts hstep hop hk (by
    intro c hc hr m hm hkey
    obtain ⟨q, hq, opq, hopq, hkq, hrq, hmq⟩ := (hmembers c hc).2.2 m hm
    have hsv : survives turns q = true := by simp [survives, hopq, hkq]
    rw [hmq] at hkey
    exact hfirst q hq hsv (hrq.trans hr) hkey)
  obtain ⟨c2, hc2, hr2, hm2⟩ := aggregate_loop_persist turns post agg1 out hpost c1 hc1 _ hm1
  exact ⟨c2, hc2, hr2.trans hr1, hm2⟩

theorem exists_first {α : Type} (Q : α → Prop) [DecidablePred Q] (l : List α) :
    ∀ x ∈ l, Q x → ∃ pre y post, l = pre ++ y :: post ∧ Q y ∧ ∀ z ∈ pre, ¬ Q z := by
  induction l with
  | nil => intro x hx; simp at hx
  | cons a l ih =>
    intro x hx hQ
    by_cases ha : Q a
    · exact ⟨[], a, l, rfl, ha, by simp⟩
    · rcases List.mem_cons.mp hx with hx | hx
      · rw [hx] at hQ
        exact absurd hQ ha
      · obtain ⟨pre, y, post, hl, hy, hpre⟩ := ih x hx hQ
        refine ⟨a :: pre, y, post, by rw [hl]; rfl, hy, ?_⟩
        intro z hz
        rcases List.mem_cons.mp hz with hz | hz
        · rw [hz]; exact ha
        · exact hpre z hz

theorem cluster_unique_of_rank {out : List rank_with_rings}
    (h : (out.map rank_with_rings.rank).Pairwise (· < ·))
    {c c2 : rank_with_rings} (hc : c ∈ out) (hc2 : c2 ∈ out) (hr : c2.rank = c.rank) :
    c2 = c := by
  have hnodup : (out.map rank_with_rings.rank).Nodup :=
    List.Pairwise.imp (fun hab => Nat.ne_of_lt hab) h
  exact List.inj_on_of_nodup_map hnodup hc2 hc hr

theorem aggregate_loop_sorted_ranks {turns : List turn} {pts : List ranked_point}
    {out : List rank_with_rings}
    (hsorted : pts.Pairwise (fun p q => p.rank ≤ q.rank))
    (h : aggregate_loop turns pts [] = some out) :
    (out.map rank_with_rings.rank).Pairwise (· < ·) := by
  have hvalid := aggregate_loop_valid_of_some turns pts [] out h
  obtain ⟨out2, hout2, hpw, _⟩ :=
    aggregate_loop_ranks turns pts [] hsorted hvalid (by simp) (by simp)
  rw [h] at hout2
  rw [Option.some.inj hout2]
  exact hpw

theorem is_i_or_c_of_kind {op : turn_operation}
    (h : op.operation = operation_type.operation_intersection
      ∨ op.operation = operation_type.operation_continue) :
    op.operation.is_i_or_c = true :=
  (operation_type.is_i_or_c_iff _).mpr h

theorem first_member_only {turns : List turn} {pre post : List ranked_point}
    {p : ranked_point} {op : turn_operation} {out : List rank_with_rings}
    (hsorted : (pre ++ p :: post).Pairwise (fun p q => p.rank ≤ q.rank))
    (h : aggregate_loop turns (pre ++ p :: post) [] = some out)
    (hop : lookup turns p.turn_index p.operation_index = some op)
    (hk : op.operation.is_i_or_c = true)
    (hfirst : ∀ q ∈ pre, survives turns q = true → q.rank = p.rank →
      ¬ (q.ring_id = p.ring_id ∧ q.direction = p.direction)) :
    ∃ c ∈ out, c.rank = p.rank ∧ (∀ c2 ∈ out, c2.rank = p.rank → c2 = c) ∧
      make_rwd p op ∈ c.rings ∧
      ∀ m ∈ c.rings, m.ring_id = p.ring_id → m.direction = p.direction →
        m = make_rwd p op := by
  obtain ⟨c, hc, hr, hm⟩ := first_member_kept h hop hk hfirst
  have hranks := aggregate_loop_sorted_ranks hsorted h
  refine ⟨c, hc, hr, fun c2 hc2 hr2 => cluster_unique_of_rank hranks hc hc2 (hr2.trans hr.symm),
    hm, ?_⟩
  intro m hmem hid hdir
  have hdistinct := distinct_keys_of_sorted (aggregate_loop_members turns _ out h c hc).2.1
  by_contra hne
  have hkey : m.ring_id = (make_rwd p op).ring_id ∧ m.direction = (make_rwd p op).direction :=
    ⟨hid, hdir⟩
  have hsymm : Symmetric (fun a b : ring_with_direction =>
      ¬ (a.ring_id = b.ring_id ∧ a.direction = b.direction)) :=
    fun a b hab hba => hab ⟨hba.1.symm, hba.2.symm⟩
  exact (List.Pairwise.forall hsymm hdistinct hmem hm hne) hkey

/-! ## Finalized operations and traversability -/

/-- C13, as the claim states it, fails: in `collapsing_sbs` the ranks are
non-decreasing and the second ranked point survives the filter and refers to a
finalized turn operation, but it collapses with the first one, so the cluster of
its rank holds the member of the first point only and is traversable. -/
theorem collapsed_point_hides_finalized :
    collapsing_sbs.m_ranked_points.Pairwise (fun p q => p.rank ≤ q.rank) ∧
    sample_point 0 1 1 0 direction_type.dir_to ∈ collapsing_sbs.m_ranked_points ∧
    lookup sample_turns 1 1
      = some (sample_operation operation_type.operation_intersection
          visit_info.finalized_state) ∧
    (sample_operation operation_type.operation_intersection
      visit_info.finalized_state).visited.finalized = true ∧
    aggregate_operations collapsing_sbs [] sample_turns = some [single_cluster] ∧
    single_cluster.rank = (sample_point 0 1 1 0 direction_type.dir_to).rank ∧
    single_cluster.traversable sample_turns = some true := by
  decide

/-- C13, amended: for ranked points with non-decreasing ranks and valid
positions, if a ranked point whose turn operation is intersection or continue
refers to a finalized turn operation, and no earlier surviving ranked point of
the same rank has its ring identifier and direction, then the one cluster that
`aggregate_operations` builds for its rank is not traversable. -/
theorem finalized_first_not_traversable (sbs : Sbs) (aggregation : List rank_with_rings)
    (turns : List turn) (pre post : List ranked_point) (p : ranked_point)
    (op : turn_operation)
    (hsorted : sbs.m_ranked_points.Pairwise (fun p q => p.rank ≤ q.rank))
    (hvalid : ∀ q ∈ sbs.m_ranked_points,
      valid_position turns q.turn_index q.operation_index)
    (hsplit : sbs.m_ranked_points = pre ++ p :: post)
    (hop : lookup turns p.turn_index p.operation_index = some op)
    (hkind : op.operation = operation_type.operation_intersection
      ∨ op.operation = operation_type.operation_continue)
    (hfin : op.visited.finalized = true)
    (hfirst : ∀ q ∈ pre, survives turns q = true → q.rank = p.rank →
      ¬ (q.ring_id = p.ring_id ∧ q.direction = p.direction)) :
    ∃ out, aggregate_operations sbs aggregation turns = some out ∧
      ∃ c ∈ out, c.rank = p.rank ∧ (∀ c2 ∈ out, c2.rank = p.rank → c2 = c) ∧
        c.traversable turns = some false := by
  obtain ⟨out, hout⟩ := aggregate_loop_isSome turns sbs.m_ranked_points [] hvalid
  refine ⟨out, by rw [aggregate_operations_eq_loop]; exact hout, ?_⟩
  rw [hsplit] at hout hsorted
  obtain ⟨c, hc, hr, huniq, hm, _⟩ :=
    first_member_only hsorted hout hop (is_i_or_c_of_kind hkind) hfirst
  refine ⟨c, hc, hr, huniq, ?_⟩
  have hmemvalid : ∀ m ∈ c.rings, valid_position turns m.turn_index m.operation_index := by
    intro m hmem
    obtain ⟨opm, hopm, _⟩ := member_lookup hout hc hmem
    exact valid_of_lookup_some hopm
  obtain ⟨b, hb, hiff⟩ := traversable_loop_spec turns c.rings hmemvalid
  cases hbv : b
  · rw [hbv] at hb
    exact hb
  · rw [hbv] at hiff
    have := hiff.mp rfl (make_rwd p op) hm op hop
    rw [hfin] at this
    exact absurd this (by decide)

/-- The hypotheses of the amended C13 hold for the last ranked point of the
sample, which refers to the finalized operation, and the amended C13 applies
there. -/
theorem finalized_first_not_traversable_witness :
    sample_sbs.m_ranked_points.Pairwise (fun p q => p.rank ≤ q.rank) ∧
    (∀ q ∈ sample_sbs.m_ranked_points,
      valid_position sample_turns q.turn_index q.operation_index) ∧
    sample_sbs.m_ranked_points
      = [ sample_point 0 0 0 0 direction_type.dir_to,
          sample_point 0 0 1 1 direction_type.dir_from,
          sample_point 1 1 0 0 direction_type.dir_to ]
        ++ sample_point 2 1 1 1 direction_type.dir_from :: [] ∧
    ∃ out, aggregate_operations sample_sbs [] sample_turns = some out ∧
      ∃ c ∈ out, c.rank = (sample_point 2 1 1 1 direction_type.dir_from).rank ∧
        (∀ c2 ∈ out, c2.rank = (sample_point 2 1 1 1 direction_type.dir_from).rank
          → c2 = c) ∧
        c.traversable sample_turns = some false :=
  ⟨by decide, by decide, by decide,
    finalized_first_not_traversable sample_sbs [] sample_turns
      [ sample_point 0 0 0 0 direction_type.dir_to,
        sample_point 0 0 1 1 direction_type.dir_from,
        sample_point 1 1 0 0 direction_type.dir_to ] []
      (sample_point 2 1 1 1 direction_type.dir_from)
      (sample_operation operation_type.operation_intersection visit_info.finalized_state)
      (by decide) (by decide) (by decide) (by decide) (by decide) (by decide) (by decide)⟩

/-! ## Members with the same ring and direction -/

/-- C14: in every cluster that `aggregate_operations` produces no two members
have the same ring identifier and direction; and on the ranked points that the
side ranker delivers, whose ranks are non-decreasing, a surviving ranked point
that is the first of its rank with its ring identifier and direction has its
member in the one cluster of its rank, and that member is the only one of the
cluster with this ring identifier and direction: later ranked points of the
rank with the same ring identifier and direction are dropped without replacing
it. -/
theorem members_distinct_first_kept (sbs : Sbs) (aggregation : List rank_with_rings)
    (turns : List turn) (out : List rank_with_rings)
    (h : aggregate_operations sbs aggregation turns = some out) :
    (∀ c ∈ out, c.rings.Pairwise
      (fun a b => ¬ (a.ring_id = b.ring_id ∧ a.direction = b.direction))) ∧
    (sbs.m_ranked_points.Pairwise (fun p q => p.rank ≤ q.rank) →
      ∀ (pre : List ranked_point) (p : ranked_point) (post : List ranked_point)
        (op : turn_operation),
        sbs.m_ranked_points = pre ++ p :: post →
        lookup turns p.turn_index p.operation_index = some op →
        (op.operation = operation_type.operation_intersection
          ∨ op.operation = operation_type.operation_continue) →
        (∀ q ∈ pre, survives turns q = true → q.rank = p.rank →
          ¬ (q.ring_id = p.ring_id ∧ q.direction = p.direction)) →
        ∃ c ∈ out, c.rank = p.rank ∧ (∀ c2 ∈ out, c2.rank = p.rank → c2 = c) ∧
          make_rwd p op ∈ c.rings ∧
          ∀ m ∈ c.rings, m.ring_id = p.ring_id → m.direction = p.direction →
            m = make_rwd p op) := by
  rw [aggregate_operations_eq_loop] at h
  refine ⟨fun c hc => ?_, ?_⟩
  · exact distinct_keys_of_sorted (aggregate_loop_members turns _ out h c hc).2.1
  · intro hsorted pre p post op hsplit hop hkind hfirst
    rw [hsplit] at h hsorted
    exact first_member_only hsorted h hop (is_i_or_c_of_kind hkind) hfirst

/-- The hypothesis of C14 holds for `collapsing_sbs`, whose two ranked points
share rank, ring identifier and direction; C14 applies there, and the member
kept is the one of the first ranked point. -/
theorem members_distinct_first_kept_witness :
    aggregate_operations collapsing_sbs [] sample_turns = some [single_cluster] ∧
    (∀ c ∈ [single_cluster], c.rings.Pairwise
      (fun a b => ¬ (a.ring_id = b.ring_id ∧ a.direction = b.direction))) ∧
    ∃ c ∈ [single_cluster],
      c.rank = (sample_point 0 0 0 0 direction_type.dir_to).rank ∧
      (∀ c2 ∈ [single_cluster],
        c2.rank = (sample_point 0 0 0 0 direction_type.dir_to).rank → c2 = c) ∧
      make_rwd (sample_point 0 0 0 0 direction_type.dir_to)
        (sample_operation operation_type.operation_intersection visit_info.unvisited)
        ∈ c.rings ∧
      ∀ m ∈ c.rings,
        m.ring_id = (sample_point 0 0 0 0 direction_type.dir_to).ring_id →
        m.direction = (sample_point 0 0 0 0 direction_type.dir_to).direction →
        m = make_rwd (sample_point 0 0 0 0 direction_type.dir_to)
          (sample_operation operation_type.operation_intersection
            visit_info.unvisited) :=
  ⟨by decide,
    (members_distinct_first_kept collapsing_sbs [] sample_turns [single_cluster]
      (by decide)).1,
    (members_distinct_first_kept collapsing_sbs [] sample_turns [single_cluster]
      (by decide)).2 (by decide) []
      (sample_point 0 0 0 0 direction_type.dir_to)
      [sample_point 0 1 1 0 direction_type.dir_to]
      (sample_operation operation_type.operation_intersection visit_info.unvisited)
      (by decide) (by decide) (by decide) (by decide)⟩

/-! ## Completeness and soundness of the aggregation -/

/-- C15: for ranked points with non-decreasing ranks and valid positions,
(completeness) for each ranked point whose turn operation is intersection or
continue, the one produced cluster of its rank has a member with the ring
identifier of its segment and with its direction; (soundness) each member of
each produced cluster has the rank of the cluster, the ring identifier, the
direction, the turn index and the operation index of some surviving ranked
point. -/
theorem aggregate_operations_complete_sound (sbs : Sbs)
    (aggregation : List rank_with_rings) (turns : List turn)
    (hsorted : sbs.m_ranked_points.Pairwise (fun p q => p.rank ≤ q.rank))
    (hvalid : ∀ p ∈ sbs.m_ranked_points,
      valid_position turns p.turn_index p.operation_index) :
    ∃ out, aggregate_operations sbs aggregation turns = some out ∧
      (∀ p ∈ sbs.m_ranked_points, ∀ op,
        lookup turns p.turn_index p.operation_index = some op →
        (op.operation = operation_type.operation_intersection
          ∨ op.operation = operation_type.operation_continue) →
        ∃ c ∈ out, c.rank = p.rank ∧ (∀ c2 ∈ out, c2.rank = p.rank → c2 = c) ∧
          ∃ m ∈ c.rings,
            m.ring_id = { source_index := p.seg_id.source_index
                          multi_index := p.seg_id.multi_index
                          ring_index := p.seg_id.ring_index } ∧
            m.direction = p.direction) ∧
      (∀ c ∈ out, ∀ m ∈ c.rings, ∃ p ∈ sbs.m_ranked_points,
        (∃ op, lookup turns p.turn_index p.operation_index = some op ∧
          (op.operation = operation_type.operation_intersection
            ∨ op.operation = operation_type.operation_continue)) ∧
        p.rank = c.rank ∧
        m.ring_id = { source_index := p.seg_id.source_index
                      multi_index := p.seg_id.multi_index
                      ring_index := p.seg_id.ring_index } ∧
        m.direction = p.direction ∧ m.turn_index = p.turn_index ∧
        m.operation_index = p.operation_index) := by
  obtain ⟨out, hout⟩ := aggregate_loop_isSome turns sbs.m_ranked_points [] hvalid
  refine ⟨out, by rw [aggregate_operations_eq_loop]; exact hout, ?_, ?_⟩
  · intro p hp op hop hkind
    have hsv : survives turns p = true := (survives_iff turns p).mpr ⟨op, hop, hkind⟩
    obtain ⟨pre, q, post, hsplit, ⟨hq_sv, hq_rank, hq_id, hq_dir⟩, hpre⟩ :=
      exists_first
        (fun x : ranked_point => survives turns x = true ∧ x.rank = p.rank ∧
          x.ring_id = p.ring_id ∧ x.direction = p.direction)
        sbs.m_ranked_points p hp ⟨hsv, rfl, rfl, rfl⟩
    obtain ⟨opq, hopq, hkq⟩ := (survives_iff turns q).mp hq_sv
    rw [hsplit] at hout hsorted
    obtain ⟨c, hc, hr, huniq, hm, _⟩ :=
      first_member_only hsorted hout hopq (is_i_or_c_of_kind hkq) (by
        intro z hz hz_sv hz_rank hz_key
        exact hpre z hz ⟨hz_sv, hz_rank.trans hq_rank, hz_key.1.trans hq_id,
          hz_key.2.trans hq_dir⟩)
    refine ⟨c, hc, hr.trans hq_rank, ?_, make_rwd q opq, hm, ?_, hq_dir⟩
    · intro c2 hc2 hr2
      exact huniq c2 hc2 (hr2.trans hq_rank.symm)
    · exact hq_id
  · intro c hc m hm
    obtain ⟨p, hp, op, hop, hk, hr, hmk⟩ :=
      (aggregate_loop_members turns _ out hout c hc).2.2 m hm
    refine ⟨p, hp, ⟨op, hop, (operation_type.is_i_or_c_iff _).mp hk⟩, hr, ?_⟩
    rw [hmk]
    exact ⟨rfl, rfl, rfl, rfl⟩

/-- The hypotheses of C15 hold for the sample ranked points over the sample turn
table, and C15 applies there. -/
theorem aggregate_operations_complete_sound_witness :
    sample_sbs.m_ranked_points.Pairwise (fun p q => p.rank ≤ q.rank) ∧
    (∀ p ∈ sample_sbs.m_ranked_points,
      valid_position sample_turns p.turn_index p.operation_index) ∧
    ∃ out, aggregate_operations sample_sbs [] sample_turns = some out ∧
      (∀ p ∈ sample_sbs.m_ranked_points, ∀ op,
        lookup sample_turns p.turn_index p.operation_index = some op →
        (op.operation = operation_type.operation_intersection
          ∨ op.operation = operation_type.operation_continue) →
        ∃ c ∈ out, c.rank = p.rank ∧ (∀ c2 ∈ out, c2.rank = p.rank → c2 = c) ∧
          ∃ m ∈ c.rings,
            m.ring_id = { source_index := p.seg_id.source_index
                          multi_index := p.seg_id.multi_index
                          ring_index := p.seg_id.ring_index } ∧
            m.direction = p.direction) ∧
      (∀ c ∈ out, ∀ m ∈ c.rings, ∃ p ∈ sample_sbs.m_ranked_points,
        (∃ op, lookup sample_turns p.turn_index p.operation_index = some op ∧
          (op.operation = operation_type.operation_intersection
            ∨ op.operation = operation_type.operation_continue)) ∧
        p.rank = c.rank ∧
        m.ring_id = { source_index := p.seg_id.source_index
                      multi_index := p.seg_id.multi_index
                      ring_index := p.seg_id.ring_index } ∧
        m.direction = p.direction ∧ m.turn_index = p.turn_index ∧
        m.operation_index = p.operation_index) :=
  ⟨by decide, by decide,
    aggregate_operations_complete_sound sample_sbs [] sample_turns (by decide) (by decide)⟩

end sort_by_side

/-! ## The constants of the Gall projection -/

namespace gall

theorem xf_rxf_bound : |XF * RXF - 1| < 1 / 10 ^ 19 := by
  rw [abs_lt]
  constructor <;> norm_num [XF, RXF]

theorem yf_ryf_bound : |YF * RYF - 1| < 1 / 10 ^ 19 := by
  rw [abs_lt]
  constructor <;> norm_num [YF, RYF]

theorem round_trip_error (lon : ℚ) :
    |inv_lon (fwd_x lon) - lon| = |XF * RXF - 1| * |lon| := by
  rw [← abs_mul]
  congr 1
  unfold inv_lon fwd_x
  ring

/-- C19, as the claim states it, fails at longitude 0: the round trip returns 0
exactly, and the error 0 is not less than `1e-19 * |0| = 0`. -/
theorem round_trip_zero_not_strict :
    inv_lon (fwd_x 0) = 0 ∧
    ¬ (|inv_lon (fwd_x 0) - 0| < 1 / 10 ^ 19 * |(0 : ℚ)|) := by
  constructor
  · simp [inv_lon, fwd_x]
  · simp [inv_lon, fwd_x]

/-- C19, amended: read as exact decimals, `|XF * RXF - 1| < 1e-19` and
`|YF * RYF - 1| < 1e-19`; the longitude round trip `inv(fwd(lon))` is
`RXF * (XF * lon)` and differs from `lon` by at most `1e-19 * |lon|`, and by
less than that when `lon` is not 0. -/
theorem round_trip_bound :
    |XF * RXF - 1| < 1 / 10 ^ 19 ∧ |YF * RYF - 1| < 1 / 10 ^ 19 ∧
    ∀ lon : ℚ, inv_lon (fwd_x lon) = RXF * (XF * lon) ∧
      |inv_lon (fwd_x lon) - lon| ≤ 1 / 10 ^ 19 * |lon| ∧
      (lon ≠ 0 → |inv_lon (fwd_x lon) - lon| < 1 / 10 ^ 19 * |lon|) := by
  refine ⟨xf_rxf_bound, yf_ryf_bound, fun lon => ⟨rfl, ?_, fun hne => ?_⟩⟩
  · rw [round_trip_error]
    exact mul_le_mul_of_nonneg_right (le_of_lt xf_rxf_bound) (abs_nonneg lon)
  · rw [round_trip_error]
    exact mul_lt_mul_of_pos_right xf_rxf_bound (abs_pos.mpr hne)

end gall
